import Mathlib

/-!
Verification of the rtreego R-tree indexing engine (src/rtree.go) against its
specification.  The tree manipulation code of src/rtree.go is embedded below
definition by definition.  The geometry primitives (the Rect type with size,
union and n-ary union) are not part of src/ — only their call sites are — so
they are modelled from the spec, §4.1.

Modelling conventions, chosen to keep every definition executable by the
kernel:

* Coordinates are integers (ℤ).  The Go code stores float64 coordinates, but
  every algorithm of rtree.go only adds, subtracts, multiplies and compares
  coordinate-derived quantities, so the algorithms are uniform over any
  linearly ordered commutative ring; ℤ is used as the exact-arithmetic model
  of those operations (float rounding itself is not modelled).

* Go nodes are linked records with a parent pointer; a split and a root
  replacement in rtree.go leave some of those parent pointers stale, which
  matters observably (getEntry dereferences them).  We model heap identity by
  giving every node the address it was allocated at (the root node of the
  tree lives at the fixed address 0, because Go stores it in place inside the
  Rtree struct and overwrites it there), and a tree-wide allocation counter
  provides fresh addresses.  Addresses produced this way are unique, so a Go
  parent-pointer dereference finds the actual parent node if and only if the
  stored parent address equals the actual parent's address; where rtree.go
  reads a parent pointer we compare the stored address with the address of
  the true parent on the descent path and fail (Go: nil-dereference panic in
  getEntry) on mismatch.

* Go panics (nil dereference, out-of-range slicing) are modelled by Option:
  a panicking execution returns none.

* Mutable state is passed explicitly; recursion that Go performs through
  pointers is performed on the descent path (a zipper of frames), with fuel
  where the recursion is not structural.  Fuel amounts are chosen so that
  they never run out on executions the Go code completes.
-/

/-- Modelled from the spec, §3/§4.1 (geom.go is absent from src/): a rectangle
is an ordered pair of coordinate vectors (min, max). -/
structure Rect where
  lo : List ℤ
  hi : List ℤ
deriving DecidableEq

/-- Any type implementing Bounds() can be stored; the payload is irrelevant to
rtree.go, so an object is modelled as its bounding rectangle (rtree.go 82-85). -/
structure SpatialObj where
  bounds : Rect
deriving DecidableEq

/-- Modelled from the spec, §4.1: size(bb) is the product of the side lengths
(hyper-volume). -/
def Rect.size (r : Rect) : ℤ :=
  (List.zipWith (fun h l => h - l) r.hi r.lo).prod

/-- Modelled from the spec, §4.1: union(a,b) is the smallest rectangle
containing both, computed per-axis min/max. -/
def Rect.union (a b : Rect) : Rect :=
  ⟨List.zipWith min a.lo b.lo, List.zipWith max a.hi b.hi⟩

/-- Modelled from the spec, §4.1: unionAll/boundingBoxN is the fold of union
over a sequence; the sequence is non-empty at every call site in rtree.go
(the empty case returns a dimensionless rectangle and is unreachable). -/
def boundingBoxN : List Rect → Rect
  | [] => ⟨[], []⟩
  | r :: rs => rs.foldl Rect.union r

/-- Modelled from the spec, §6/§7: the dimensionality of a rectangle is its
number of axes. -/
def Rect.dim (r : Rect) : ℕ := r.lo.length

/- A tree node (rtree.go 57-62): leaf flag and entry list, plus the modelled
heap address and stored parent address (Go: the parent pointer).  The entry
list is the mutually inductive EList so that every recursion over the tree is
structural. -/
mutual
inductive RNode : Type where
  | mk (addr : ℕ) (parentAddr : Option ℕ) (isLeaf : Bool) (entries : EList)
inductive EList : Type where
  | nil
  | consN (bb : Rect) (child : RNode) (rest : EList)
  | consO (bb : Rect) (obj : SpatialObj) (rest : EList)
end

/-- An entry (rtree.go 68-73) as a standalone value: either (bb, child) for
internal nodes or (bb, object) for leaves (never both, per the data model). -/
inductive REntry : Type where
  | child (bb : Rect) (n : RNode)
  | obj (bb : Rect) (o : SpatialObj)

instance : Inhabited REntry := ⟨.obj ⟨[], []⟩ ⟨⟨[], []⟩⟩⟩

def REntry.bb : REntry → Rect
  | .child b _ => b
  | .obj b _ => b

def EList.toL : EList → List REntry
  | .nil => []
  | .consN b c rest => .child b c :: rest.toL
  | .consO b o rest => .obj b o :: rest.toL

def EList.ofL : List REntry → EList
  | [] => .nil
  | .child b c :: rest => .consN b c (ofL rest)
  | .obj b o :: rest => .consO b o (ofL rest)

def RNode.addr : RNode → ℕ
  | .mk a _ _ _ => a

def RNode.parentAddr : RNode → Option ℕ
  | .mk _ pa _ _ => pa

def RNode.isLeaf : RNode → Bool
  | .mk _ _ lf _ => lf

def RNode.entries : RNode → EList
  | .mk _ _ _ es => es

/-- The node's entries as a plain list. -/
def RNode.ents (n : RNode) : List REntry := n.entries.toL

/- Node count of a subtree (a structural measure used as fuel; every node
counts 1). -/
mutual
def RNode.ns : RNode → ℕ
  | .mk _ _ _ es => es.ns + 1
def EList.ns : EList → ℕ
  | .nil => 0
  | .consN _ c rest => c.ns + rest.ns
  | .consO _ _ rest => rest.ns
end

def entryBBs (es : List REntry) : List Rect := es.map REntry.bb

/-- computeBoundingBox (rtree.go 181-188): the MBR of the entries of n. -/
def computeBB (n : RNode) : Rect := boundingBoxN (entryBBs n.ents)

/-- The "wasted space" of a pair of rectangles (rtree.go 269):
size(union) - size(a) - size(b). -/
def wasted (a b : Rect) : ℤ := (a.union b).size - a.size - b.size

/-- Inner loop of pickSeeds (rtree.go 268-274): j ranges over the entries
after position i; the accumulator keeps (maxWastedSpace, left, right) and is
updated on strict improvement.  The index j carried here is already the
absolute index (Go: j+i+1). -/
def pickSeedsInner (e1bb : Rect) (i : ℕ) : List REntry → ℕ → ℤ × ℕ × ℕ → ℤ × ℕ × ℕ
  | [], _, best => best
  | e2 :: rest, j, (mw, l, r) =>
    let d := wasted e1bb e2.bb
    if d > mw then pickSeedsInner e1bb i rest (j + 1) (d, i, j)
    else pickSeedsInner e1bb i rest (j + 1) (mw, l, r)

/-- Outer loop of pickSeeds (rtree.go 267): i ranges over all entries, the
inner loop over the suffix after i. -/
def pickSeedsOuter : List REntry → ℕ → ℤ × ℕ × ℕ → ℤ × ℕ × ℕ
  | [], _, best => best
  | e1 :: rest, i, best => pickSeedsOuter rest (i + 1) (pickSeedsInner e1.bb i rest (i + 1) best)

/-- pickSeeds (rtree.go 264-277): scan every unordered pair, keeping the pair
with strictly greatest wasted space; maxWastedSpace starts at -1.0, so a pair
is only ever selected when its wasted space exceeds -1, and (0, 0) is
returned when no pair does (in particular on fewer than two entries). -/
def pickSeeds (es : List REntry) : ℕ × ℕ :=
  let res := pickSeedsOuter es 0 (-1, 0, 0)
  (res.2.1, res.2.2)

/-- Loop body of pickNext (rtree.go 284-292): d = |d1 - d2| with the
enlargement deltas of e for the two group MBRs; maxDiff starts at -1.0, so
the first entry (d ≥ 0 > -1) always becomes the initial candidate. -/
def pickNextAux (lbb rbb : Rect) : List REntry → ℕ → ℤ × ℕ → ℤ × ℕ
  | [], _, best => best
  | e :: rest, i, (mx, nx) =>
    let d1 := (lbb.union e.bb).size - lbb.size
    let d2 := (rbb.union e.bb).size - rbb.size
    let d := |d1 - d2|
    if d > mx then pickNextAux lbb rbb rest (i + 1) (d, i)
    else pickNextAux lbb rbb rest (i + 1) (mx, nx)

/-- pickNext (rtree.go 279-294); the two groups are carried as entry lists,
their MBRs computed exactly as node.computeBoundingBox does. -/
def pickNext (left right es : List REntry) : ℕ :=
  (pickNextAux (boundingBoxN (entryBBs left)) (boundingBoxN (entryBBs right)) es 0 (-1, 0)).2

/-- assignGroup (rtree.go 229-262), returning true when the entry goes to the
left group: least enlargement first, then smaller area, then fewer entries
(ties to the left). -/
def assignGroup (e : REntry) (left right : List REntry) : Bool :=
  let leftBB := boundingBoxN (entryBBs left)
  let rightBB := boundingBoxN (entryBBs right)
  let leftDiff := (leftBB.union e.bb).size - leftBB.size
  let rightDiff := (rightBB.union e.bb).size - rightBB.size
  if leftDiff - rightDiff < 0 then true
  else if leftDiff - rightDiff > 0 then false
  else if leftBB.size - rightBB.size < 0 then true
  else if leftBB.size - rightBB.size > 0 then false
  else decide ((left.length : ℤ) - right.length ≤ 0)

/-- Distribution loop of split (rtree.go 206-220).  Each pass picks the entry
with the strongest preference (pickNext), force-assigns it when one group
plus all remaining entries would only just reach minGroupSize, and otherwise
assigns by assignGroup; the entry is then removed from remaining.  Each pass
removes exactly one entry, so fuel = remaining.length never runs out; the
fuel-0 branch is unreachable. -/
def distribute (minC : ℤ) : ℕ → List REntry → List REntry → List REntry → List REntry × List REntry
  | 0, left, right, _ => (left, right)
  | fuel + 1, left, right, remaining =>
    match remaining with
    | [] => (left, right)
    | _ :: _ =>
      let next := pickNext left right remaining
      let e := remaining.getD next default
      let rem' := remaining.eraseIdx next
      if (remaining.length : ℤ) + left.length ≤ minC then
        distribute minC fuel (left ++ [e]) right rem'
      else if (remaining.length : ℤ) + right.length ≤ minC then
        distribute minC fuel left (right ++ [e]) rem'
      else if assignGroup e left right then
        distribute minC fuel (left ++ [e]) right rem'
      else
        distribute minC fuel left (right ++ [e]) rem'

/-- split on the entry list (rtree.go 192-223).  The seeds are entries l and
r from pickSeeds; Go then builds remaining = entries[:l] ++ entries[l+1:r] ++
entries[r+1:] (the two in-place appends copy with memmove semantics, so the
resulting values are exactly this concatenation).  The slice expression
entries[l+1:r] panics when l+1 > r, which is precisely what happens when
pickSeeds selected no pair and returned (0, 0); the guard models that panic
(r < length holds whenever l < r, since any updated pair is in range). -/
def splitEntries (minC : ℤ) (es : List REntry) : Option (List REntry × List REntry) :=
  let l := (pickSeeds es).1
  let r := (pickSeeds es).2
  if l < r ∧ r < es.length then
    let remaining := es.take l ++ (es.drop (l + 1)).take (r - (l + 1)) ++ es.drop (r + 1)
    some (distribute minC remaining.length [es.getD l default] [es.getD r default] remaining)
  else none

/-- node.split (rtree.go 192-204): the original node is reused as the left
group (same address, parent pointer and leaf flag); the right group is a
fresh node with the same parent pointer and leaf flag, allocated at the next
fresh address.  Child nodes inside the moved entries keep their stored parent
addresses — rtree.go never updates them. -/
def splitNode (minC : ℤ) (c : ℕ) (n : RNode) : Option (RNode × RNode × ℕ) :=
  (splitEntries minC n.ents).map
    (fun p => (RNode.mk n.addr n.parentAddr n.isLeaf (EList.ofL p.1),
               RNode.mk c n.parentAddr n.isLeaf (EList.ofL p.2), c + 1))

/-- Selection scan of chooseLeaf (rtree.go 125-135): find the entry whose bb
needs least enlargement to include the object, breaking ties towards the
smaller current bb area; the scan keeps (diff, chosen).  Go initialises diff
to math.MaxFloat64, which any finite enlargement is below, so the first entry
always becomes the initial candidate; that initial state is modelled as none.
The accumulator carries (diff, chosen.bb, index of chosen). -/
def chooseEntryAux (r : Rect) : List REntry → ℕ → Option (ℤ × Rect × ℕ) → Option (ℤ × Rect × ℕ)
  | [], _, acc => acc
  | e :: rest, i, acc =>
    let d := (e.bb.union r).size - e.bb.size
    let upd : Bool :=
      match acc with
      | none => true
      | some (diff, chbb, _) => decide (d < diff ∨ (d = diff ∧ e.bb.size < chbb.size))
    chooseEntryAux r rest (i + 1) (if upd then some (d, e.bb, i) else acc)

/-- Index of the entry chosen by the chooseLeaf scan; none on an empty entry
list (Go then recurses into a nil child pointer and panics). -/
def chooseEntryIdx (es : List REntry) (r : Rect) : Option ℕ :=
  (chooseEntryAux r es 0 none).map (fun x => x.2.2)

/-- One ancestor on the descent path: the node with a hole where the followed
child entry sits.  ileft/iright are the entries before/after the hole and
holebb the bb stored in the hole entry.  Path nodes are internal, so the
rebuilt node has isLeaf = false. -/
structure Frame where
  addr : ℕ
  parentAddr : Option ℕ
  ileft : List REntry
  holebb : Rect
  iright : List REntry

/-- Rebuild the ancestor node from its frame and the subtree in the hole. -/
def plugFrame (f : Frame) (n : RNode) : RNode :=
  RNode.mk f.addr f.parentAddr false (EList.ofL (f.ileft ++ REntry.child f.holebb n :: f.iright))

/-- chooseLeaf (rtree.go 119-138), returning the descent path as a list of
frames (deepest ancestor first) together with the leaf reached.  Go recurses
through child pointers; the recursion here is on fuel, and callers pass at
least the node count of the tree, which exceeds the height, so fuel never
runs out on executions Go completes.  An internal node with no entries, or a
chosen entry with no child node, makes Go dereference a nil pointer: none. -/
def chooseLeafPath : ℕ → RNode → Rect → Option (List Frame × RNode)
  | 0, _, _ => none
  | fuel + 1, n, r =>
    if n.isLeaf then some ([], n)
    else
      match chooseEntryIdx n.ents r with
      | none => none
      | some i =>
        match (n.ents).get? i with
        | some (REntry.child bb c) =>
          (chooseLeafPath fuel c r).map
            (fun p => (p.1 ++ [⟨n.addr, n.parentAddr, (n.ents).take i, bb, (n.ents).drop (i + 1)⟩], p.2))
        | _ => none

/-- adjustTree (rtree.go 141-167), walking the recorded descent path from the
leaf's parent up to the root; c is the allocation counter.  Each step first
performs getEntry (rtree.go 170-179): Go dereferences n's stored parent
pointer and scans that node's entries for the child pointer equal to n.
Node addresses are unique, so that scan finds n exactly when n's stored
parent address is the address of the true parent frame; otherwise getEntry
returns nil and Go panics on the nil dereference (modelled: none).  The found
entry's bb is recomputed; with no pending split the rebuilt parent is
propagated; with a pending split nn, an entry for nn is appended to the
parent, which is split in turn when it overflows MaxChildren. -/
def adjustUp (minC maxC : ℤ) : ℕ → List Frame → RNode → Option RNode → Option (RNode × Option RNode × ℕ)
  | c, [], n, nn => some (n, nn, c)
  | c, f :: rest, n, nn =>
    if n.parentAddr = some f.addr then
      let newbb := computeBB n
      match nn with
      | none => adjustUp minC maxC c rest (plugFrame { f with holebb := newbb } n) none
      | some nx =>
        let es' := (f.ileft ++ REntry.child newbb n :: f.iright) ++ [REntry.child (computeBB nx) nx]
        if (es'.length : ℤ) > maxC then
          match splitNode minC c (RNode.mk f.addr f.parentAddr false (EList.ofL es')) with
          | none => none
          | some (l, rr, c') => adjustUp minC maxC c' rest l (some rr)
        else adjustUp minC maxC c rest (RNode.mk f.addr f.parentAddr false (EList.ofL es')) none
    else none

/-- The Rtree struct (rtree.go 16-22) with the modelled allocation counter.
size only ever counts up from 0, so it is a ℕ. -/
structure RTree where
  dim : ℤ
  minChildren : ℤ
  maxChildren : ℤ
  root : RNode
  size : ℕ
  nextAddr : ℕ

/-- NewTree (rtree.go 24-30): no validation of the parameters; the root is a
leaf with an empty entry slice.  The root lives at address 0. -/
def newTree (dim minC maxC : ℤ) : RTree :=
  ⟨dim, minC, maxC, RNode.mk 0 none true .nil, 0, 1⟩

/-- Size (rtree.go 32-35). -/
def sizeOp (t : RTree) : ℕ := t.size

/-- Insert (rtree.go 95-117): descend to a leaf, append the new entry, split
the leaf if it exceeds MaxChildren, adjust upwards, and if a split reaches
the root, wrap the old root and its sibling in a new root.  Go copies the old
root value into a fresh variable (a fresh address; its children's stored
parent pointers still name address 0) and overwrites the root in place at
address 0; both children of the new root get parent address 0.  The size
counter is incremented and nil is returned — there is no dimensionality check
anywhere on this path. -/
def leafPlus (leaf : RNode) (o : SpatialObj) : RNode :=
  RNode.mk leaf.addr leaf.parentAddr leaf.isLeaf (EList.ofL (leaf.ents ++ [REntry.obj o.bounds o]))

/-- Steps 2-3 of Insert: append done by leafPlus, split the leaf when it now
exceeds MaxChildren (rtree.go 97-101). -/
def splitIfOver (minC maxC : ℤ) (c : ℕ) (n : RNode) : Option (RNode × Option RNode × ℕ) :=
  if (n.ents.length : ℤ) > maxC then
    (splitNode minC c n).map (fun p => (p.1, some p.2.1, p.2.2))
  else some (n, none, c)

/-- Step 5 of Insert (rtree.go 103-114): when adjustTree reports a root
split, wrap the old root and the sibling in a new root.  Go copies the old
root value into a fresh variable (a fresh address; its children's stored
parent pointers still name address 0) and overwrites the root in place at
address 0; both children of the new root get parent address 0. -/
def finishRoot (t : RTree) : RNode × Option RNode × ℕ → RTree
  | (root', none, c') => { t with root := root', nextAddr := c', size := t.size + 1 }
  | (root', some nx, c') =>
    let old := RNode.mk c' (some 0) root'.isLeaf root'.entries
    let nx' := RNode.mk nx.addr (some 0) nx.isLeaf nx.entries
    { t with
      root := RNode.mk 0 none false
        (EList.ofL [REntry.child (computeBB old) old, REntry.child (computeBB nx') nx']),
      nextAddr := c' + 1,
      size := t.size + 1 }

def insertObj (t : RTree) (o : SpatialObj) : Option RTree :=
  match chooseLeafPath t.root.ns t.root o.bounds with
  | none => none
  | some (frames, leaf) =>
    match splitIfOver t.minChildren t.maxChildren t.nextAddr (leafPlus leaf o) with
    | none => none
    | some (n, nn, c) =>
      (adjustUp t.minChildren t.maxChildren c frames n nn).map (finishRoot t)

/-- Delete (rtree.go 298-306): the body is a stub returning (false, nil) and
touching nothing; findLeaf and condenseTree are never called. -/
def deleteObj (t : RTree) (_o : SpatialObj) : Bool × Option Unit × RTree :=
  (false, none, t)

/-- A mutating operation issued by a caller. -/
inductive Op : Type where
  | ins (o : SpatialObj)
  | del (o : SpatialObj)

def applyOp (t : RTree) : Op → Option RTree
  | .ins o => insertObj t o
  | .del o => some (deleteObj t o).2.2

/-- Run a sequence of operations; none as soon as one panics. -/
def runOps (t : RTree) : List Op → Option RTree
  | [] => some t
  | op :: ops =>
    match applyOp t op with
    | none => none
    | some t' => runOps t' ops

/-- Run a sequence of operations counting (completed inserts, deletes that
returned found = true). -/
def runCount (t : RTree) : List Op → Option (RTree × ℕ × ℕ)
  | [] => some (t, 0, 0)
  | .ins o :: ops =>
    match insertObj t o with
    | none => none
    | some t' => (runCount t' ops).map (fun p => (p.1, p.2.1 + 1, p.2.2))
  | .del o :: ops =>
    let res := deleteObj t o
    (runCount res.2.2 ops).map (fun p => (p.1, p.2.1, if res.1 then p.2.2 + 1 else p.2.2))

/- Depth (rtree.go 41-55): nodeDepth returns 1 on a leaf and otherwise the
SUM of the children's depths over all entries (rtree.go 48-52).  An entry
without a child node would make Go dereference nil: none. -/
mutual
def RNode.goDepth : RNode → Option ℕ
  | .mk _ _ true _ => some 1
  | .mk _ _ false es => es.goDepthSum
def EList.goDepthSum : EList → Option ℕ
  | .nil => some 0
  | .consN _ c rest =>
    match c.goDepth, rest.goDepthSum with
    | some d, some s => some (d + s)
    | _, _ => none
  | .consO _ _ rest =>
    match rest.goDepthSum with
    | _ => none
end

/-- Depth of the tree as rtree.go computes it. -/
def depthOp (t : RTree) : Option ℕ := t.root.goDepth

/- The number of levels from the root to the leaves, defined only when it is
uniform across all leaves (spec §6: Depth "number of levels from root to
leaves (uniform across all leaves)"): a leaf has 1 level; an internal node
has h+1 when all its children are child entries of uniform level h. -/
mutual
def RNode.heightB : RNode → Option ℕ
  | .mk _ _ true _ => some 1
  | .mk _ _ false es => es.heightL.map (· + 1)
def EList.heightL : EList → Option ℕ
  | .nil => none
  | .consN _ c rest =>
    match c.heightB with
    | none => none
    | some h => if rest.allH h then some h else none
  | .consO _ _ _ => none
def EList.allH : ℕ → EList → Bool
  | _, .nil => true
  | h, .consN _ c rest => decide (c.heightB = some h) && rest.allH h
  | _, .consO _ _ _ => false
end

/- Branching-factor check: countsOK requires every node of the subtree,
including its root, to hold between m and M entries; countsKidsL checks it
for every node strictly below an entry list's owner (used at the tree root,
which is exempt). -/
def EList.len : EList → ℕ
  | .nil => 0
  | .consN _ _ rest => rest.len + 1
  | .consO _ _ rest => rest.len + 1

mutual
def RNode.countsOK (m M : ℤ) : RNode → Bool
  | .mk _ _ _ es => (decide (m ≤ (es.len : ℤ) ∧ (es.len : ℤ) ≤ M)) && es.countsKidsL m M
def EList.countsKidsL (m M : ℤ) : EList → Bool
  | .nil => true
  | .consN _ c rest => c.countsOK m M && rest.countsKidsL m M
  | .consO _ _ rest => rest.countsKidsL m M
end

/- Bounding-box exactness: every child entry's bb equals the MBR of the
child's entries and every object entry's bb equals the object's bounds,
recursively. -/
mutual
def RNode.bbOK : RNode → Bool
  | .mk _ _ _ es => es.bbOKL
def EList.bbOKL : EList → Bool
  | .nil => true
  | .consN bb c rest => decide (bb = computeBB c) && c.bbOK && rest.bbOKL
  | .consO bb o rest => decide (bb = o.bounds) && rest.bbOKL
end

/-- The structural invariant of C8: all leaves at uniform depth, every
non-root node within [MinChildren, MaxChildren], every entry bb exact. -/
def invB (m M : ℤ) (t : RTree) : Bool :=
  t.root.heightB.isSome && t.root.entries.countsKidsL m M && t.root.bbOK

/-! Concrete inputs used by the counterexample and witness theorems. -/

/-- A degenerate point object at coordinate k in one dimension. -/
def pt (k : ℤ) : SpatialObj := ⟨⟨[k], [k]⟩⟩

/-- A one-dimensional rectangle of positive size, used to exhibit the
duplicate-rectangle panic (any rectangle with size at least 1 works). -/
def rDup : Rect := ⟨[0], [2]⟩

def oDup : SpatialObj := ⟨rDup⟩

def eDup : REntry := .obj rDup oDup

/-- A one-dimensional object, inserted into a tree configured with Dim 2. -/
def o1d : SpatialObj := ⟨⟨[0], [1]⟩⟩

/-- Eight distinct point insertions on a Dim 1, MinChildren 2, MaxChildren 4
tree; after them the root has three leaf children. -/
def c4ops : List Op :=
  [.ins (pt 1), .ins (pt 2), .ins (pt 3), .ins (pt 4), .ins (pt 5), .ins (pt 6), .ins (pt 7), .ins (pt 8)]

/- The intermediate trees reached by c4ops, written out so that each insert
step is checked by the kernel on an explicit tree. -/
def run8T1 : RTree := ⟨1, 2, 4, RNode.mk 0 none true (EList.consO { lo := [1], hi := [1] } { bounds := { lo := [1], hi := [1] } } (EList.nil)), 1, 1⟩
def run8T2 : RTree := ⟨1, 2, 4, RNode.mk 0 none true (EList.consO { lo := [1], hi := [1] } { bounds := { lo := [1], hi := [1] } } (EList.consO { lo := [2], hi := [2] } { bounds := { lo := [2], hi := [2] } } (EList.nil))), 2, 1⟩
def run8T3 : RTree := ⟨1, 2, 4, RNode.mk 0 none true (EList.consO { lo := [1], hi := [1] } { bounds := { lo := [1], hi := [1] } } (EList.consO { lo := [2], hi := [2] } { bounds := { lo := [2], hi := [2] } } (EList.consO { lo := [3], hi := [3] } { bounds := { lo := [3], hi := [3] } } (EList.nil)))), 3, 1⟩
def run8T4 : RTree := ⟨1, 2, 4, RNode.mk 0 none true (EList.consO { lo := [1], hi := [1] } { bounds := { lo := [1], hi := [1] } } (EList.consO { lo := [2], hi := [2] } { bounds := { lo := [2], hi := [2] } } (EList.consO { lo := [3], hi := [3] } { bounds := { lo := [3], hi := [3] } } (EList.consO { lo := [4], hi := [4] } { bounds := { lo := [4], hi := [4] } } (EList.nil))))), 4, 1⟩
def run8T5 : RTree := ⟨1, 2, 4, RNode.mk 0 none false (EList.consN { lo := [1], hi := [3] } (RNode.mk 2 (some 0) true (EList.consO { lo := [1], hi := [1] } { bounds := { lo := [1], hi := [1] } } (EList.consO { lo := [2], hi := [2] } { bounds := { lo := [2], hi := [2] } } (EList.consO { lo := [3], hi := [3] } { bounds := { lo := [3], hi := [3] } } (EList.nil))))) (EList.consN { lo := [4], hi := [5] } (RNode.mk 1 (some 0) true (EList.consO { lo := [5], hi := [5] } { bounds := { lo := [5], hi := [5] } } (EList.consO { lo := [4], hi := [4] } { bounds := { lo := [4], hi := [4] } } (EList.nil)))) (EList.nil))), 5, 3⟩
def run8T6 : RTree := ⟨1, 2, 4, RNode.mk 0 none false (EList.consN { lo := [1], hi := [3] } (RNode.mk 2 (some 0) true (EList.consO { lo := [1], hi := [1] } { bounds := { lo := [1], hi := [1] } } (EList.consO { lo := [2], hi := [2] } { bounds := { lo := [2], hi := [2] } } (EList.consO { lo := [3], hi := [3] } { bounds := { lo := [3], hi := [3] } } (EList.nil))))) (EList.consN { lo := [4], hi := [6] } (RNode.mk 1 (some 0) true (EList.consO { lo := [5], hi := [5] } { bounds := { lo := [5], hi := [5] } } (EList.consO { lo := [4], hi := [4] } { bounds := { lo := [4], hi := [4] } } (EList.consO { lo := [6], hi := [6] } { bounds := { lo := [6], hi := [6] } } (EList.nil))))) (EList.nil))), 6, 3⟩
def run8T7 : RTree := ⟨1, 2, 4, RNode.mk 0 none false (EList.consN { lo := [1], hi := [3] } (RNode.mk 2 (some 0) true (EList.consO { lo := [1], hi := [1] } { bounds := { lo := [1], hi := [1] } } (EList.consO { lo := [2], hi := [2] } { bounds := { lo := [2], hi := [2] } } (EList.consO { lo := [3], hi := [3] } { bounds := { lo := [3], hi := [3] } } (EList.nil))))) (EList.consN { lo := [4], hi := [7] } (RNode.mk 1 (some 0) true (EList.consO { lo := [5], hi := [5] } { bounds := { lo := [5], hi := [5] } } (EList.consO { lo := [4], hi := [4] } { bounds := { lo := [4], hi := [4] } } (EList.consO { lo := [6], hi := [6] } { bounds := { lo := [6], hi := [6] } } (EList.consO { lo := [7], hi := [7] } { bounds := { lo := [7], hi := [7] } } (EList.nil)))))) (EList.nil))), 7, 3⟩
def run8T8 : RTree := ⟨1, 2, 4, RNode.mk 0 none false (EList.consN { lo := [1], hi := [3] } (RNode.mk 2 (some 0) true (EList.consO { lo := [1], hi := [1] } { bounds := { lo := [1], hi := [1] } } (EList.consO { lo := [2], hi := [2] } { bounds := { lo := [2], hi := [2] } } (EList.consO { lo := [3], hi := [3] } { bounds := { lo := [3], hi := [3] } } (EList.nil))))) (EList.consN { lo := [4], hi := [6] } (RNode.mk 1 (some 0) true (EList.consO { lo := [4], hi := [4] } { bounds := { lo := [4], hi := [4] } } (EList.consO { lo := [5], hi := [5] } { bounds := { lo := [5], hi := [5] } } (EList.consO { lo := [6], hi := [6] } { bounds := { lo := [6], hi := [6] } } (EList.nil))))) (EList.consN { lo := [7], hi := [8] } (RNode.mk 3 (some 0) true (EList.consO { lo := [8], hi := [8] } { bounds := { lo := [8], hi := [8] } } (EList.consO { lo := [7], hi := [7] } { bounds := { lo := [7], hi := [7] } } (EList.nil)))) (EList.nil)))), 8, 4⟩


/-! Derived notions used to state and prove the claims. -/

/-- Enlargement delta (spec glossary): the increase in bounding-box size
caused by including r in e's box; the quantity d of the chooseLeaf scan. -/
def delta (e : REntry) (r : Rect) : ℤ := (e.bb.union r).size - e.bb.size

/-- The update condition of the chooseLeaf scan, as a function of the
accumulator. -/
def takeCond (acc : Option (ℤ × Rect × ℕ)) (c : ℤ × Rect × ℕ) : Bool :=
  match acc with
  | none => true
  | some (diff, chbb, _) => decide (c.1 < diff ∨ (c.1 = diff ∧ c.2.1.size < chbb.size))

/-- The chooseLeaf scan as a fold over precomputed candidates. -/
def foldSel (acc : Option (ℤ × Rect × ℕ)) : List (ℤ × Rect × ℕ) → Option (ℤ × Rect × ℕ)
  | [] => acc
  | c :: cs => foldSel (if takeCond acc c then some c else acc) cs

/-- The candidates the chooseLeaf scan considers: (delta, bb, index). -/
def cands (r : Rect) : List REntry → ℕ → List (ℤ × Rect × ℕ)
  | [], _ => []
  | e :: rest, i => (delta e r, e.bb, i) :: cands r rest (i + 1)

/-- a is at least as good as b for the chooseLeaf scan: strictly smaller
delta, or equal delta and a bb of no larger size. -/
def BetterEq (a b : ℤ × Rect × ℕ) : Prop :=
  a.1 < b.1 ∨ (a.1 = b.1 ∧ a.2.1.size ≤ b.2.1.size)

/-- The pickSeeds scan as a fold over precomputed pair candidates
(wasted space, left, right); strictly greater wasted space wins. -/
def seedFold (acc : ℤ × ℕ × ℕ) : List (ℤ × ℕ × ℕ) → ℤ × ℕ × ℕ
  | [] => acc
  | c :: cs => seedFold (if c.1 > acc.1 then c else acc) cs

/-- Candidates of the inner pickSeeds loop: entry i paired with each entry of
rest, whose first element carries absolute index j0. -/
def seedCandsInner (e1bb : Rect) (i : ℕ) : List REntry → ℕ → List (ℤ × ℕ × ℕ)
  | [], _ => []
  | e2 :: rest, j0 => (wasted e1bb e2.bb, i, j0) :: seedCandsInner e1bb i rest (j0 + 1)

/-- All pair candidates of pickSeeds over a list whose head has absolute
index i0. -/
def seedCands : List REntry → ℕ → List (ℤ × ℕ × ℕ)
  | [], _ => []
  | e1 :: rest, i0 => seedCandsInner e1.bb i0 rest (i0 + 1) ++ seedCands rest (i0 + 1)

/-- Wasted space of the pair of entries at positions i and j. -/
def pairWaste (es : List REntry) (i j : ℕ) : ℤ :=
  wasted (es.getD i default).bb (es.getD j default).bb

/-! Invariant predicates for the structural-invariant claims. -/

/-- What an entry of an internal node at child height h looks like in a
well-formed tree: a child entry whose subtree has uniform height h, respects
the branching bounds throughout, has exact bounding boxes, and whose stored
bb is the MBR of the child's entries. -/
def EntryInvC (m M : ℤ) (h : ℕ) : REntry → Prop
  | .child bb c => c.heightB = some h ∧ c.countsOK m M = true ∧ c.bbOK = true ∧ bb = computeBB c
  | .obj _ _ => False

/-- A leaf entry with an exact bounding box. -/
def entryBBOK : REntry → Prop
  | .child bb c => bb = computeBB c ∧ c.bbOK = true
  | .obj bb o => bb = o.bounds

/-- Entry whose child subtree (if any) respects the branching bounds. -/
def entryKidsOK (m M : ℤ) : REntry → Prop
  | .child _ c => c.countsOK m M = true
  | .obj _ _ => True

/-- Entry that is a child entry of uniform height h. -/
def EntryH (h : ℕ) : REntry → Prop
  | .child _ c => c.heightB = some h
  | .obj _ _ => False

/-- The number of entries of the node a frame came from. -/
def frameCount (f : Frame) : ℕ := f.ileft.length + 1 + f.iright.length

/-- The sibling entries of a frame at sibling height h are well-formed. -/
def FrameOK (m M : ℤ) (h : ℕ) (f : Frame) : Prop :=
  ∀ e ∈ f.ileft ++ f.iright, EntryInvC m M h e

/-- A chain of frames, deepest first, whose hole at the bottom has height h;
every frame's node is within the branching bounds, except that the topmost
frame (the root) is exempt from the lower bound. -/
def FramesChain (m M : ℤ) : List Frame → ℕ → Prop
  | [], _ => True
  | f :: rest, h =>
    FrameOK m M h f ∧ (frameCount f : ℤ) ≤ M ∧
    (rest ≠ [] → m ≤ (frameCount f : ℤ)) ∧ FramesChain m M rest (h + 1)

/-- As FramesChain, but every frame (root included) satisfies the lower
bound; produced for descents through non-root nodes. -/
def FramesChainS (m M : ℤ) : List Frame → ℕ → Prop
  | [], _ => True
  | f :: rest, h =>
    FrameOK m M h f ∧ m ≤ (frameCount f : ℤ) ∧ (frameCount f : ℤ) ≤ M ∧
    FramesChainS m M rest (h + 1)

/-- The auxiliary invariant carried through the induction for C8: the root
has a uniform height, all nodes below it are within the branching bounds,
all bounding boxes are exact, and the root itself holds at most M entries. -/
def TreeInv (m M : ℤ) (t : RTree) : Prop :=
  (∃ h, t.root.heightB = some h) ∧
  t.root.entries.countsKidsL m M = true ∧
  t.root.bbOK = true ∧
  (t.root.ents.length : ℤ) ≤ M

/-! Concrete inputs for the remaining witnesses. -/

/-- Three point entries used by the C7 witness. -/
def c7es : List REntry :=
  [.obj (pt 0).bounds (pt 0), .obj (pt 5).bounds (pt 5), .obj (pt 6).bounds (pt 6)]

def c7r : Rect := ⟨[6], [6]⟩

/-- Four point entries, two close together and two far apart (the spec's seed
selection scenario). -/
def c6es : List REntry :=
  [.obj (pt 0).bounds (pt 0), .obj (pt 1).bounds (pt 1),
   .obj (pt 10).bounds (pt 10), .obj (pt 11).bounds (pt 11)]

/-- Five distinct point entries: an overflowing leaf of a MaxChildren = 4
tree. -/
def c1es : List REntry :=
  [.obj (pt 1).bounds (pt 1), .obj (pt 2).bounds (pt 2), .obj (pt 3).bounds (pt 3),
   .obj (pt 4).bounds (pt 4), .obj (pt 5).bounds (pt 5)]

/-- A node holding five identical entries of size 2 (reached by inserting the
same rectangle five times): MaxChildren + 1 entries for M = 4. -/
def dupNode : RNode := RNode.mk 0 none true (EList.ofL (List.replicate 5 eDup))

/-! Step lemmas for the c4ops run: each insert checked on an explicit tree. -/

theorem run8_step1 : insertObj (newTree 1 2 4) (pt 1) = some run8T1 := rfl

theorem run8_step2 : insertObj run8T1 (pt 2) = some run8T2 := rfl

theorem run8_step3 : insertObj run8T2 (pt 3) = some run8T3 := rfl

theorem run8_step4 : insertObj run8T3 (pt 4) = some run8T4 := rfl

theorem run8_step5 : insertObj run8T4 (pt 5) = some run8T5 := rfl

theorem run8_step6 : insertObj run8T5 (pt 6) = some run8T6 := rfl

theorem run8_step7 : insertObj run8T6 (pt 7) = some run8T7 := rfl

theorem run8_step8 : insertObj run8T7 (pt 8) = some run8T8 := rfl

theorem run8_all : runOps (newTree 1 2 4) c4ops = some run8T8 := by
  simp only [c4ops, runOps, applyOp, run8_step1, run8_step2, run8_step3, run8_step4,
    run8_step5, run8_step6, run8_step7, run8_step8]

/-- Claim C10: NewTree performs no validation for any integer arguments,
including ones violating the documented constraints, and returns a tree whose
root is a leaf with zero entries, with Size() = 0 and Depth() = 1. -/
theorem c10_newTree_no_validation :
    ∀ dim minC maxC : ℤ,
      (newTree dim minC maxC).root.isLeaf = true ∧
      (newTree dim minC maxC).root.entries = EList.nil ∧
      sizeOp (newTree dim minC maxC) = 0 ∧
      depthOp (newTree dim minC maxC) = some 1 :=
  fun _ _ _ => ⟨rfl, rfl, rfl, rfl⟩

/-- Claim C2 (code_bug evidence): Insert performs no dimensionality check.
Inserting a 1-dimensional object into a tree configured with Dim = 2
succeeds (Go returns nil) and increments Size() to 1, instead of returning a
dimensionality error and leaving the tree unchanged. -/
theorem c2_insert_no_dim_check :
    ((o1d.bounds.dim : ℤ) ≠ (newTree 2 2 4).dim) ∧
    (insertObj (newTree 2 2 4) o1d).map sizeOp = some 1 :=
  ⟨by decide, rfl⟩

/-- Claim C5 (code_bug evidence): Delete is a stub: for every tree and every
object it returns (found = false, err = nil) and leaves the tree untouched,
so Insert(o) followed by Delete(o) returns (false, nil), not (true, nil). -/
theorem c5_delete_always_not_found :
    ∀ (t : RTree) (o : SpatialObj), deleteObj t o = (false, none, t) :=
  fun _ _ => rfl

/-- Claim C3 (code_bug evidence): with matching dimensionality throughout,
four inserts of the same rectangle of size 2 into NewTree(1, 2, 4) succeed,
but the fifth panics: the overflowing leaf holds five identical entries,
every pair wastes space -2 which never exceeds the -1.0 that pickSeeds
starts from, pickSeeds yields (0, 0), and split's slice expression
entries[1:0] is out of range. -/
theorem c3_insert_panics_on_duplicates :
    runOps (newTree 1 2 4) (List.replicate 5 (Op.ins oDup)) = none ∧
    (runOps (newTree 1 2 4) (List.replicate 4 (Op.ins oDup))).isSome = true :=
  ⟨rfl, rfl⟩

/-- Claim C4 (code_bug evidence): on the reachable tree produced by the eight
successful inserts of c4ops — whose root has three leaf children, all leaves
at uniform level 2 — Depth() returns 3 (nodeDepth sums the children's depths
instead of taking their maximum, so it returns the number of leaves), while
the number of levels from root to leaves is 2. -/
theorem c4_depth_sums_children :
    (runOps (newTree 1 2 4) c4ops).map (fun t => (depthOp t, t.root.heightB)) =
      some (some 3, some 2) := by
  rw [run8_all]
  rfl

/-- Every completed Insert increments the size counter by exactly one
(rtree.go 115), whatever path it took. -/
theorem insert_size {t : RTree} {o : SpatialObj} {t' : RTree} (h : insertObj t o = some t') :
    t'.size = t.size + 1 := by
  unfold insertObj at h
  split at h
  · exact Option.noConfusion h
  · split at h
    · exact Option.noConfusion h
    · simp only [Option.map_eq_some'] at h
      obtain ⟨⟨root', nn, c'⟩, _, rfl⟩ := h
      cases nn <;> rfl

/-- Over any completed run, the final size is the initial size plus the
number of inserts, and no delete ever reports found = true. -/
theorem runCount_size :
    ∀ (ops : List Op) (t tf : RTree) (n k : ℕ),
      runCount t ops = some (tf, n, k) → tf.size = t.size + n ∧ k = 0 := by
  intro ops
  induction ops with
  | nil =>
    intro t tf n k h
    simp only [runCount, Option.some.injEq, Prod.mk.injEq] at h
    obtain ⟨rfl, rfl, rfl⟩ := h
    exact ⟨rfl, rfl⟩
  | cons op ops ih =>
    intro t tf n k h
    cases op with
    | ins o =>
      simp only [runCount] at h
      split at h
      · exact Option.noConfusion h
      · rename_i t' hins
        simp only [Option.map_eq_some', Prod.mk.injEq] at h
        obtain ⟨⟨tf', n', k'⟩, hrc, rfl, rfl, rfl⟩ := h
        obtain ⟨h1, h2⟩ := ih t' tf' n' k' hrc
        refine ⟨?_, h2⟩
        simp only [h1, insert_size hins]
        omega
    | del o =>
      simp only [runCount, deleteObj, if_neg, Bool.false_eq_true, not_false_eq_true,
        Option.map_eq_some', Prod.mk.injEq] at h
      obtain ⟨⟨tf', n', k'⟩, hrc, rfl, rfl, rfl⟩ := h
      exact ih t tf' n' k' hrc

/-- Claim C9: for every operation sequence completed from a new tree, with n
the number of completed inserts and k the number of deletes that returned
found = true, Size() afterwards equals n - k.  (Delete is a stub that never
returns found = true, so k = 0 on every run and Size() = n.) -/
theorem c9_size_is_inserts_minus_deletes :
    ∀ (dim minC maxC : ℤ) (ops : List Op) (tf : RTree) (n k : ℕ),
      runCount (newTree dim minC maxC) ops = some (tf, n, k) →
      (sizeOp tf : ℤ) = (n : ℤ) - (k : ℤ) := by
  intro dim minC maxC ops tf n k h
  obtain ⟨h1, h2⟩ := runCount_size ops (newTree dim minC maxC) tf n k h
  subst h2
  simp [sizeOp, h1, newTree]

/-- Witness for C9 at a concrete run: one insert and one delete from
NewTree(1, 2, 4); the delete returns found = false, so n = 1, k = 0 and the
size is 1 = 1 - 0. -/
theorem c9_size_is_inserts_minus_deletes_witness :
    runCount (newTree 1 2 4) [Op.ins (pt 1), Op.del (pt 1)] = some (run8T1, 1, 0) ∧
    (sizeOp run8T1 : ℤ) = (1 : ℤ) - (0 : ℤ) :=
  ⟨rfl, c9_size_is_inserts_minus_deletes 1 2 4 [Op.ins (pt 1), Op.del (pt 1)] run8T1 1 0 rfl⟩

/-! C7: the chooseLeaf selection scan. -/

theorem BetterEq_trans {a b c : ℤ × Rect × ℕ} (h1 : BetterEq a b) (h2 : BetterEq b c) :
    BetterEq a c := by
  unfold BetterEq at *
  rcases h1 with h1 | ⟨h1, h1'⟩ <;> rcases h2 with h2 | ⟨h2, h2'⟩
  · exact Or.inl (lt_trans h1 h2)
  · exact Or.inl (h2 ▸ h1)
  · exact Or.inl (h1 ▸ h2)
  · exact Or.inr ⟨h1.trans h2, le_trans h1' h2'⟩

theorem takeCond_true {acc : Option (ℤ × Rect × ℕ)} {c : ℤ × Rect × ℕ}
    (h : takeCond acc c = true) : ∀ a, acc = some a → BetterEq c a := by
  intro a ha
  subst ha
  simp only [takeCond, decide_eq_true_eq] at h
  rcases h with h | ⟨h, h'⟩
  · exact Or.inl h
  · exact Or.inr ⟨h, le_of_lt h'⟩

theorem takeCond_false {a c : ℤ × Rect × ℕ}
    (h : takeCond (some a) c = false) : BetterEq a c := by
  simp only [takeCond, decide_eq_false_iff_not, not_or, not_and, not_lt] at h
  obtain ⟨h1, h2⟩ := h
  rcases lt_or_eq_of_le h1 with h | h
  · exact Or.inl h
  · exact Or.inr ⟨h, h2 h.symm⟩

theorem foldSel_spec :
    ∀ (cs : List (ℤ × Rect × ℕ)) (acc : Option (ℤ × Rect × ℕ)),
      ((foldSel acc cs = acc) ∨ (∃ c ∈ cs, foldSel acc cs = some c)) ∧
      (∀ c ∈ cs, ∀ x, foldSel acc cs = some x → BetterEq x c) ∧
      (∀ a, acc = some a → ∀ x, foldSel acc cs = some x → BetterEq x a) ∧
      (∀ a, acc = some a → (foldSel acc cs).isSome = true) ∧
      (acc = none → cs ≠ [] → (foldSel acc cs).isSome = true) := by
  intro cs
  induction cs with
  | nil =>
    intro acc
    refine ⟨Or.inl rfl, by simp, ?_, ?_, by simp⟩
    · intro a ha x hx
      rw [foldSel] at hx
      rw [ha] at hx
      cases hx
      exact Or.inr ⟨rfl, le_refl _⟩
    · intro a ha
      rw [foldSel, ha]
      rfl
  | cons c cs ih =>
    intro acc
    rw [foldSel]
    by_cases hc : takeCond acc c = true
    · rw [if_pos hc]
      obtain ⟨ihm, ihall, ihacc, ihsome, _⟩ := ih (some c)
      have hsome : (foldSel (some c) cs).isSome = true := ihsome c rfl
      refine ⟨?_, ?_, ?_, fun a _ => hsome, fun _ _ => hsome⟩
      · rcases ihm with hm | ⟨c', hc', he⟩
        · exact Or.inr ⟨c, by simp, hm⟩
        · exact Or.inr ⟨c', by simp [hc'], he⟩
      · intro c' hc' x hx
        rcases List.mem_cons.mp hc' with rfl | hmem
        · exact ihacc c' rfl x hx
        · exact ihall c' hmem x hx
      · intro a ha x hx
        exact BetterEq_trans (ihacc c rfl x hx) (takeCond_true hc a ha)
    · rw [if_neg hc]
      have hacc : ∃ a, acc = some a := by
        cases acc with
        | none => simp [takeCond] at hc
        | some a => exact ⟨a, rfl⟩
      obtain ⟨a, rfl⟩ := hacc
      obtain ⟨ihm, ihall, ihacc, ihsome, _⟩ := ih (some a)
      have hbe : BetterEq a c := takeCond_false (Bool.not_eq_true _ ▸ hc)
      refine ⟨?_, ?_, ihacc, ihsome, by simp⟩
      · rcases ihm with hm | hm
        · exact Or.inl hm
        · obtain ⟨c', hc', he⟩ := hm
          exact Or.inr ⟨c', by simp [hc'], he⟩
      · intro c' hc' x hx
        rcases List.mem_cons.mp hc' with rfl | hmem
        · exact BetterEq_trans (ihacc a rfl x hx) hbe
        · exact ihall c' hmem x hx

theorem chooseEntryAux_eq_foldSel :
    ∀ (es : List REntry) (r : Rect) (i0 : ℕ) (acc : Option (ℤ × Rect × ℕ)),
      chooseEntryAux r es i0 acc = foldSel acc (cands r es i0) := by
  intro es
  induction es with
  | nil => intro r i0 acc; rfl
  | cons e rest ih =>
    intro r i0 acc
    rw [cands, foldSel, ← ih r (i0 + 1)]
    rfl

theorem mem_cands_iff :
    ∀ (es : List REntry) (r : Rect) (i0 : ℕ) (x : ℤ × Rect × ℕ),
      x ∈ cands r es i0 ↔
        ∃ k, k < es.length ∧
          x = (delta (es.getD k default) r, (es.getD k default).bb, i0 + k) := by
  intro es
  induction es with
  | nil => simp [cands]
  | cons e rest ih =>
    intro r i0 x
    rw [cands]
    constructor
    · intro hx
      rcases List.mem_cons.mp hx with rfl | hmem
      · exact ⟨0, by simp⟩
      · obtain ⟨k, hk, he⟩ := (ih r (i0 + 1) x).mp hmem
        refine ⟨k + 1, by simpa using hk, ?_⟩
        simpa [List.getD_cons_succ, Nat.add_assoc, Nat.add_comm 1 k] using he
    · rintro ⟨k, hk, rfl⟩
      cases k with
      | zero => simp
      | succ k =>
        refine List.mem_cons_of_mem _ ((ih r (i0 + 1) _).mpr ⟨k, by simpa using hk, ?_⟩)
        simp [List.getD_cons_succ, Nat.add_assoc, Nat.add_comm 1 k]

theorem chooseLeafPath_isLeaf :
    ∀ (fuel : ℕ) (n : RNode) (r : Rect) (frames : List Frame) (leaf : RNode),
      chooseLeafPath fuel n r = some (frames, leaf) → leaf.isLeaf = true := by
  intro fuel
  induction fuel with
  | zero => intro n r frames leaf h; exact Option.noConfusion h
  | succ fuel ih =>
    intro n r frames leaf h
    rw [chooseLeafPath] at h
    by_cases hl : n.isLeaf
    · rw [if_pos hl] at h
      cases h
      exact hl
    · rw [if_neg hl] at h
      split at h
      · exact Option.noConfusion h
      · split at h
        · simp only [Option.map_eq_some'] at h
          obtain ⟨⟨frames', leaf'⟩, hrec, heq⟩ := h
          cases heq
          exact ih _ _ _ _ hrec
        · exact Option.noConfusion h

/-- Claim C7: whenever the chooseLeaf scan selects an entry, that entry's
enlargement delta is minimal among the node's entries, and among entries tied
on minimal delta its resulting (enlarged) box area is smallest; and
chooseLeaf always stops at a leaf. -/
theorem c7_chooseLeaf_least_enlargement :
    (∀ (es : List REntry) (r : Rect) (i : ℕ), chooseEntryIdx es r = some i →
      i < es.length ∧
      ∀ j, j < es.length →
        delta (es.getD i default) r ≤ delta (es.getD j default) r ∧
        (delta (es.getD j default) r = delta (es.getD i default) r →
          ((es.getD i default).bb.union r).size ≤ ((es.getD j default).bb.union r).size)) ∧
    (∀ (es : List REntry) (r : Rect), es ≠ [] → (chooseEntryIdx es r).isSome = true) ∧
    (∀ (fuel : ℕ) (n : RNode) (r : Rect) (frames : List Frame) (leaf : RNode),
      chooseLeafPath fuel n r = some (frames, leaf) → leaf.isLeaf = true) := by
  refine ⟨?_, ?_, chooseLeafPath_isLeaf⟩
  case refine_2 =>
    intro es r hne
    cases es with
    | nil => exact absurd rfl hne
    | cons e rest =>
      have h := (foldSel_spec (cands r (e :: rest) 0) none).2.2.2.2 rfl
        (by rw [cands]; exact List.cons_ne_nil _ _)
      rw [chooseEntryIdx, chooseEntryAux_eq_foldSel]
      rcases hfs : foldSel none (cands r (e :: rest) 0) with _ | x
      · rw [hfs] at h
        simp at h
      · simp
  · intro es r i h
    simp only [chooseEntryIdx, Option.map_eq_some'] at h
    obtain ⟨⟨d, bb, i'⟩, hres, hi⟩ := h
    cases hi
    dsimp only
    rw [chooseEntryAux_eq_foldSel] at hres
    obtain ⟨hm, hall, -, -, -⟩ := foldSel_spec (cands r es 0) none
    rcases hm with hm | hm
    · rw [hres] at hm
      exact Option.noConfusion hm
    · obtain ⟨c, hc, he⟩ := hm
      rw [hres] at he
      cases he
      obtain ⟨k, hk, he⟩ := (mem_cands_iff es r 0 _).mp hc
      simp only [Prod.mk.injEq, Nat.zero_add] at he
      obtain ⟨hd, hbb, rfl⟩ := he
      subst hd
      subst hbb
      refine ⟨hk, ?_⟩
      intro j hj
      have hcj : (delta (es.getD j default) r, (es.getD j default).bb, j) ∈ cands r es 0 :=
        (mem_cands_iff es r 0 _).mpr ⟨j, hj, by simp⟩
      have hbe := hall _ hcj _ hres
      unfold BetterEq at hbe
      simp only at hbe
      constructor
      · rcases hbe with hbe | ⟨hbe, -⟩
        · exact le_of_lt hbe
        · exact le_of_eq hbe
      · intro htie
        rcases hbe with hbe | ⟨-, hbe⟩
        · omega
        · unfold delta at htie
          omega

/-- Witness for C7 at a concrete node: among the point entries 0, 5, 6 the
scan picks index 2 for the target point 6 (zero enlargement). -/
theorem c7_chooseLeaf_least_enlargement_witness :
    chooseEntryIdx c7es c7r = some 2 ∧
    (2 < c7es.length ∧
      ∀ j, j < c7es.length →
        delta (c7es.getD 2 default) c7r ≤ delta (c7es.getD j default) c7r ∧
        (delta (c7es.getD j default) c7r = delta (c7es.getD 2 default) c7r →
          ((c7es.getD 2 default).bb.union c7r).size ≤ ((c7es.getD j default).bb.union c7r).size)) :=
  ⟨rfl, c7_chooseLeaf_least_enlargement.1 c7es c7r 2 rfl⟩

/-! C6: the pickSeeds pair scan. -/

theorem seedFold_spec :
    ∀ (cs : List (ℤ × ℕ × ℕ)) (acc : ℤ × ℕ × ℕ),
      (seedFold acc cs = acc ∨ seedFold acc cs ∈ cs) ∧
      acc.1 ≤ (seedFold acc cs).1 ∧
      (∀ c ∈ cs, c.1 ≤ (seedFold acc cs).1) := by
  intro cs
  induction cs with
  | nil => intro acc; exact ⟨Or.inl rfl, le_refl _, by simp⟩
  | cons c cs ih =>
    intro acc
    rw [seedFold]
    by_cases hc : c.1 > acc.1
    · rw [if_pos hc]
      obtain ⟨ihm, ihacc, ihall⟩ := ih c
      refine ⟨?_, le_trans (le_of_lt hc) ihacc, ?_⟩
      · rcases ihm with hm | hm
        · exact Or.inr (by simp [hm])
        · exact Or.inr (List.mem_cons_of_mem _ hm)
      · intro c' hc'
        rcases List.mem_cons.mp hc' with rfl | hmem
        · exact ihacc
        · exact ihall c' hmem
    · rw [if_neg hc]
      obtain ⟨ihm, ihacc, ihall⟩ := ih acc
      refine ⟨?_, ihacc, ?_⟩
      · rcases ihm with hm | hm
        · exact Or.inl hm
        · exact Or.inr (List.mem_cons_of_mem _ hm)
      · intro c' hc'
        rcases List.mem_cons.mp hc' with rfl | hmem
        · exact le_trans (not_lt.mp hc) ihacc
        · exact ihall c' hmem

theorem seedFold_append :
    ∀ (xs ys : List (ℤ × ℕ × ℕ)) (acc : ℤ × ℕ × ℕ),
      seedFold acc (xs ++ ys) = seedFold (seedFold acc xs) ys := by
  intro xs
  induction xs with
  | nil => intro ys acc; rfl
  | cons x xs ih =>
    intro ys acc
    rw [List.cons_append, seedFold, seedFold, ih]

theorem pickSeedsInner_eq :
    ∀ (rest : List REntry) (e1bb : Rect) (i j0 : ℕ) (acc : ℤ × ℕ × ℕ),
      pickSeedsInner e1bb i rest j0 acc = seedFold acc (seedCandsInner e1bb i rest j0) := by
  intro rest
  induction rest with
  | nil => intro e1bb i j0 acc; rfl
  | cons e2 rest ih =>
    intro e1bb i j0 acc
    obtain ⟨mw, l, r⟩ := acc
    rw [seedCandsInner, seedFold, ← ih]
    dsimp only
    by_cases h : wasted e1bb e2.bb > mw
    · rw [if_pos h]
      simp only [pickSeedsInner, if_pos h]
    · rw [if_neg h]
      simp only [pickSeedsInner, if_neg h]

theorem pickSeedsOuter_eq :
    ∀ (es : List REntry) (i0 : ℕ) (acc : ℤ × ℕ × ℕ),
      pickSeedsOuter es i0 acc = seedFold acc (seedCands es i0) := by
  intro es
  induction es with
  | nil => intro i0 acc; rfl
  | cons e1 rest ih =>
    intro i0 acc
    rw [seedCands, seedFold_append, pickSeedsOuter, ih, pickSeedsInner_eq]

theorem mem_seedCandsInner_iff :
    ∀ (rest : List REntry) (e1bb : Rect) (i j0 : ℕ) (x : ℤ × ℕ × ℕ),
      x ∈ seedCandsInner e1bb i rest j0 ↔
        ∃ k, k < rest.length ∧ x = (wasted e1bb (rest.getD k default).bb, i, j0 + k) := by
  intro rest
  induction rest with
  | nil => simp [seedCandsInner]
  | cons e2 rest ih =>
    intro e1bb i j0 x
    rw [seedCandsInner]
    constructor
    · intro hx
      rcases List.mem_cons.mp hx with rfl | hmem
      · exact ⟨0, by simp⟩
      · obtain ⟨k, hk, he⟩ := (ih e1bb i (j0 + 1) x).mp hmem
        refine ⟨k + 1, by simpa using hk, ?_⟩
        simpa [List.getD_cons_succ, Nat.add_assoc, Nat.add_comm 1 k] using he
    · rintro ⟨k, hk, rfl⟩
      cases k with
      | zero => simp
      | succ k =>
        refine List.mem_cons_of_mem _ ((ih e1bb i (j0 + 1) _).mpr ⟨k, by simpa using hk, ?_⟩)
        simp [List.getD_cons_succ, Nat.add_assoc, Nat.add_comm 1 k]

theorem mem_seedCands_iff :
    ∀ (es : List REntry) (i0 : ℕ) (x : ℤ × ℕ × ℕ),
      x ∈ seedCands es i0 ↔
        ∃ k l, k < l ∧ l < es.length ∧
          x = (wasted (es.getD k default).bb (es.getD l default).bb, i0 + k, i0 + l) := by
  intro es
  induction es with
  | nil => simp [seedCands]
  | cons e1 rest ih =>
    intro i0 x
    rw [seedCands, List.mem_append, mem_seedCandsInner_iff, ih]
    constructor
    · intro hx
      rcases hx with ⟨k, hk, rfl⟩ | ⟨k, l, hkl, hl, rfl⟩
      · exact ⟨0, k + 1, Nat.succ_pos k, by simpa using hk,
          by simp [List.getD_cons_succ, Nat.add_assoc, Nat.add_comm 1 k]⟩
      · exact ⟨k + 1, l + 1, Nat.succ_lt_succ hkl, by simpa using hl,
          by simp [List.getD_cons_succ, Nat.add_assoc, Nat.add_comm 1 k, Nat.add_comm 1 l]⟩
    · rintro ⟨k, l, hkl, hl, rfl⟩
      cases k with
      | zero =>
        cases l with
        | zero => exact absurd hkl (lt_irrefl 0)
        | succ l =>
          exact Or.inl ⟨l, by simpa using hl,
            by simp [List.getD_cons_succ, Nat.add_assoc, Nat.add_comm 1 l]⟩
      | succ k =>
        cases l with
        | zero => exact absurd hkl (by omega)
        | succ l =>
          exact Or.inr ⟨k, l, by omega, by simpa using hl,
            by simp [List.getD_cons_succ, Nat.add_assoc, Nat.add_comm 1 k, Nat.add_comm 1 l]⟩

/-- Claim C6, counterexample: on a node with two identical entries of size 2
the only unordered pair wastes -2, which does not exceed the -1.0 that
maxWastedSpace starts from, so pickSeeds returns (0, 0) — not a pair of
distinct entries (and not the maximal pair (0, 1)). -/
theorem c6_pickSeeds_counterexample :
    pickSeeds [eDup, eDup] = (0, 0) ∧ pairWaste [eDup, eDup] 0 1 = -2 :=
  ⟨rfl, rfl⟩

/-- Shared helper: provided some pair of entries has wasted space exceeding
the -1.0 initial value of maxWastedSpace, pickSeeds returns indices l < r of
a pair that maximizes wasted space over all pairs. -/
theorem pickSeeds_spec :
    ∀ es : List REntry,
      (∃ i j, i < j ∧ j < es.length ∧ -1 < pairWaste es i j) →
      (pickSeeds es).1 < (pickSeeds es).2 ∧ (pickSeeds es).2 < es.length ∧
      ∀ i j, i < j → j < es.length →
        pairWaste es i j ≤ pairWaste es (pickSeeds es).1 (pickSeeds es).2 := by
  intro es ⟨i, j, hij, hj, hw⟩
  have hps : pickSeedsOuter es 0 (-1, 0, 0) = seedFold (-1, 0, 0) (seedCands es 0) :=
    pickSeedsOuter_eq es 0 (-1, 0, 0)
  obtain ⟨hm, -, hall⟩ := seedFold_spec (seedCands es 0) (-1, 0, 0)
  have hcij : ((pairWaste es i j, i, j) : ℤ × ℕ × ℕ) ∈ seedCands es 0 :=
    (mem_seedCands_iff es 0 _).mpr ⟨i, j, hij, hj, by simp [pairWaste]⟩
  have hgt : -1 < (seedFold (-1, 0, 0) (seedCands es 0)).1 :=
    lt_of_lt_of_le hw (hall _ hcij)
  have hmem : seedFold (-1, 0, 0) (seedCands es 0) ∈ seedCands es 0 := by
    rcases hm with hm | hm
    · rw [hm] at hgt
      exact absurd hgt (lt_irrefl _)
    · exact hm
  obtain ⟨k, l, hkl, hl, he⟩ := (mem_seedCands_iff es 0 _).mp hmem
  simp only [Nat.zero_add] at he
  have hps2 : pickSeeds es = (k, l) := by
    rw [pickSeeds, hps, he]
  rw [hps2]
  refine ⟨hkl, hl, ?_⟩
  intro i' j' hij' hj'
  have hci' : ((pairWaste es i' j', i', j') : ℤ × ℕ × ℕ) ∈ seedCands es 0 :=
    (mem_seedCands_iff es 0 _).mpr ⟨i', j', hij', hj', by simp [pairWaste]⟩
  have := hall _ hci'
  rw [he] at this
  simpa [pairWaste, wasted] using this

/-- Claim C6 as amended: provided some pair of entries has wasted space
exceeding the -1.0 initial value of maxWastedSpace, pickSeeds returns indices
l < r of a pair that maximizes wasted space over all pairs. -/
theorem c6_pickSeeds_max_waste :
    ∀ es : List REntry,
      (∃ i j, i < j ∧ j < es.length ∧ -1 < pairWaste es i j) →
      (pickSeeds es).1 < (pickSeeds es).2 ∧ (pickSeeds es).2 < es.length ∧
      ∀ i j, i < j → j < es.length →
        pairWaste es i j ≤ pairWaste es (pickSeeds es).1 (pickSeeds es).2 :=
  pickSeeds_spec

/-- Witness for C6 at the spec's scenario: four points at 0, 1, 10, 11; the
far-apart pair (0, 11) at indices (0, 3) is selected. -/
theorem c6_pickSeeds_max_waste_witness :
    pickSeeds c6es = (0, 3) ∧
    ((pickSeeds c6es).1 < (pickSeeds c6es).2 ∧ (pickSeeds c6es).2 < c6es.length ∧
      ∀ i j, i < j → j < c6es.length →
        pairWaste c6es i j ≤ pairWaste c6es (pickSeeds c6es).1 (pickSeeds c6es).2) :=
  ⟨rfl, c6_pickSeeds_max_waste c6es ⟨0, 3, by decide, by decide, by decide⟩⟩

/-! C1: split partitions the entries and bounds both group sizes. -/

theorem toL_ofL : ∀ l : List REntry, (EList.ofL l).toL = l := by
  intro l
  induction l with
  | nil => rfl
  | cons e rest ih =>
    cases e with
    | child b c => simp [EList.ofL, EList.toL, ih]
    | obj b o => simp [EList.ofL, EList.toL, ih]

theorem neg_one_lt_abs (x : ℤ) : -1 < |x| :=
  lt_of_lt_of_le (by norm_num) (abs_nonneg x)

theorem pickNextAux_mem :
    ∀ (es : List REntry) (lbb rbb : Rect) (i0 : ℕ) (acc : ℤ × ℕ),
      (pickNextAux lbb rbb es i0 acc).2 = acc.2 ∨
      ∃ k, k < es.length ∧ (pickNextAux lbb rbb es i0 acc).2 = i0 + k := by
  intro es
  induction es with
  | nil => intro lbb rbb i0 acc; exact Or.inl rfl
  | cons e rest ih =>
    intro lbb rbb i0 acc
    obtain ⟨mx, nx⟩ := acc
    by_cases h :
        |(lbb.union e.bb).size - lbb.size - ((rbb.union e.bb).size - rbb.size)| > mx
    · simp only [pickNextAux, if_pos h]
      rcases ih lbb rbb (i0 + 1) (_, i0) with hm | ⟨k, hk, hm⟩
      · rw [hm]
        exact Or.inr ⟨0, by simp, by simp⟩
      · exact Or.inr ⟨k + 1, by simp; omega, by rw [hm]; omega⟩
    · simp only [pickNextAux, if_neg h]
      rcases ih lbb rbb (i0 + 1) (mx, nx) with hm | ⟨k, hk, hm⟩
      · exact Or.inl hm
      · exact Or.inr ⟨k + 1, by simp; omega, by rw [hm]; omega⟩

theorem pickNext_lt :
    ∀ (left right es : List REntry), es ≠ [] → pickNext left right es < es.length := by
  intro left right es hne
  cases es with
  | nil => exact absurd rfl hne
  | cons e rest =>
    rw [pickNext]
    have h0 : |(((boundingBoxN (entryBBs left)).union e.bb).size -
        (boundingBoxN (entryBBs left)).size) -
        (((boundingBoxN (entryBBs right)).union e.bb).size -
        (boundingBoxN (entryBBs right)).size)| > (-1 : ℤ) :=
      neg_one_lt_abs _
    simp only [pickNextAux, if_pos h0]
    rcases pickNextAux_mem rest (boundingBoxN (entryBBs left)) (boundingBoxN (entryBBs right))
        1 (_, 0) with hm | ⟨k, hk, hm⟩
    · rw [hm]
      simp
    · rw [hm]
      simp only [List.length_cons]
      omega

theorem getD_cons_eraseIdx_perm :
    ∀ (l : List REntry) (n : ℕ), n < l.length →
      List.Perm l (l.getD n default :: l.eraseIdx n) := by
  intro l
  induction l with
  | nil => intro n h; simp at h
  | cons x t ih =>
    intro n h
    cases n with
    | zero => simp [List.eraseIdx]
    | succ n =>
      have hn : n < t.length := by simpa using h
      simp only [List.getD_cons_succ, List.eraseIdx_cons_succ]
      exact ((ih n hn).cons x).trans (List.Perm.swap _ _ _)

theorem multiset_eraseIdx (l : List REntry) (n : ℕ) (h : n < l.length) :
    (l : Multiset REntry) = l.getD n default ::ₘ (l.eraseIdx n : List REntry) := by
  rw [Multiset.cons_coe]
  exact Multiset.coe_eq_coe.mpr (getD_cons_eraseIdx_perm l n h)

theorem distribute_spec :
    ∀ (fuel : ℕ) (rem left right : List REntry) (m : ℤ),
      fuel = rem.length →
      m ≤ (rem.length : ℤ) + left.length →
      m ≤ (rem.length : ℤ) + right.length →
      2 * m + 1 ≤ (left.length : ℤ) + right.length + rem.length →
      ((distribute m fuel left right rem).1 : Multiset REntry) +
        ((distribute m fuel left right rem).2 : Multiset REntry) =
        (left : Multiset REntry) + (right : Multiset REntry) + (rem : Multiset REntry) ∧
      m ≤ ((distribute m fuel left right rem).1.length : ℤ) ∧
      m ≤ ((distribute m fuel left right rem).2.length : ℤ) ∧
      ((distribute m fuel left right rem).1.length : ℤ) +
        ((distribute m fuel left right rem).2.length : ℤ) =
        (left.length : ℤ) + (right.length : ℤ) + (rem.length : ℤ) := by
  intro fuel
  induction fuel with
  | zero =>
    intro rem left right m hf hA hB hT
    have hrem : rem = [] := List.length_eq_zero.mp hf.symm
    subst hrem
    simp only [distribute, List.length_nil, Nat.cast_zero] at hA hB ⊢
    refine ⟨by simp, by omega, by omega, by omega⟩
  | succ fuel ih =>
    intro rem left right m hf hA hB hT
    cases rem with
    | nil => simp at hf
    | cons r0 rem0 =>
      have hne : (r0 :: rem0 : List REntry) ≠ [] := List.cons_ne_nil _ _
      have hlt : pickNext left right (r0 :: rem0) < (r0 :: rem0).length :=
        pickNext_lt _ _ _ hne
      have hlen : ((r0 :: rem0).eraseIdx (pickNext left right (r0 :: rem0))).length = fuel := by
        have h := List.length_eraseIdx_add_one hlt
        simp only [List.length_cons] at h hf
        omega
      have hms : ((r0 :: rem0 : List REntry) : Multiset REntry) =
          (r0 :: rem0).getD (pickNext left right (r0 :: rem0)) default ::ₘ
            (((r0 :: rem0).eraseIdx (pickNext left right (r0 :: rem0)) : List REntry) :
              Multiset REntry) :=
        multiset_eraseIdx _ _ hlt
      simp only [distribute]
      set nxt := pickNext left right (r0 :: rem0) with hnxt
      set el := (r0 :: rem0).getD nxt default with hel
      set rem' := (r0 :: rem0).eraseIdx nxt with hrem'
      simp only [List.length_cons] at hf hA hB hT ⊢
      split_ifs with h1 h2 h3
      · obtain ⟨ih1, ih2, ih3, ih4⟩ := ih rem' (left ++ [el]) right m hlen.symm
          (by simp only [List.length_append, List.length_cons, List.length_nil]; omega)
          (by omega)
          (by simp only [List.length_append, List.length_cons, List.length_nil]; omega)
        refine ⟨?_, ih2, ih3, ?_⟩
        · rw [ih1, hms, ← Multiset.coe_add]
          simp only [Multiset.coe_singleton]
          rw [← Multiset.singleton_add]
          abel
        · simp only [List.length_append, List.length_cons, List.length_nil] at ih4
          rw [ih4]
          push_cast
          omega
      · obtain ⟨ih1, ih2, ih3, ih4⟩ := ih rem' left (right ++ [el]) m hlen.symm
          (by omega)
          (by simp only [List.length_append, List.length_cons, List.length_nil]; omega)
          (by simp only [List.length_append, List.length_cons, List.length_nil]; omega)
        refine ⟨?_, ih2, ih3, ?_⟩
        · rw [ih1, hms, ← Multiset.coe_add]
          simp only [Multiset.coe_singleton]
          rw [← Multiset.singleton_add]
          abel
        · simp only [List.length_append, List.length_cons, List.length_nil] at ih4
          rw [ih4]
          push_cast
          omega
      · obtain ⟨ih1, ih2, ih3, ih4⟩ := ih rem' (left ++ [el]) right m hlen.symm
          (by simp only [List.length_append, List.length_cons, List.length_nil]; omega)
          (by omega)
          (by simp only [List.length_append, List.length_cons, List.length_nil]; omega)
        refine ⟨?_, ih2, ih3, ?_⟩
        · rw [ih1, hms, ← Multiset.coe_add]
          simp only [Multiset.coe_singleton]
          rw [← Multiset.singleton_add]
          abel
        · simp only [List.length_append, List.length_cons, List.length_nil] at ih4
          rw [ih4]
          push_cast
          omega
      · obtain ⟨ih1, ih2, ih3, ih4⟩ := ih rem' left (right ++ [el]) m hlen.symm
          (by omega)
          (by simp only [List.length_append, List.length_cons, List.length_nil]; omega)
          (by simp only [List.length_append, List.length_cons, List.length_nil]; omega)
        refine ⟨?_, ih2, ih3, ?_⟩
        · rw [ih1, hms, ← Multiset.coe_add]
          simp only [Multiset.coe_singleton]
          rw [← Multiset.singleton_add]
          abel
        · simp only [List.length_append, List.length_cons, List.length_nil] at ih4
          rw [ih4]
          push_cast
          omega

theorem splitRemove_multiset :
    ∀ (es : List REntry) (l r : ℕ), l < r → r < es.length →
      (es : Multiset REntry) =
        es.getD l default ::ₘ es.getD r default ::ₘ
          ((es.take l ++ (es.drop (l + 1)).take (r - (l + 1)) ++ es.drop (r + 1) : List REntry) :
            Multiset REntry) := by
  intro es l r hlr hr
  have hl : l < es.length := lt_trans hlr hr
  have hlist : es = es.take l ++
      (es.getD l default ::
        ((es.drop (l + 1)).take (r - (l + 1)) ++ (es.getD r default :: es.drop (r + 1)))) := by
    calc es = es.take l ++ es.drop l := (List.take_append_drop l es).symm
      _ = es.take l ++ (es.getD l default :: es.drop (l + 1)) := by
          rw [List.drop_eq_getElem_cons hl, List.getD_eq_getElem es default hl]
      _ = es.take l ++ (es.getD l default ::
            ((es.drop (l + 1)).take (r - (l + 1)) ++ (es.drop (l + 1)).drop (r - (l + 1)))) := by
          rw [List.take_append_drop]
      _ = es.take l ++ (es.getD l default ::
            ((es.drop (l + 1)).take (r - (l + 1)) ++ es.drop r)) := by
          have harith : l + 1 + (r - (l + 1)) = r := by omega
          rw [List.drop_drop, harith]
      _ = es.take l ++ (es.getD l default ::
            ((es.drop (l + 1)).take (r - (l + 1)) ++ (es.getD r default :: es.drop (r + 1)))) := by
          rw [List.drop_eq_getElem_cons hr, List.getD_eq_getElem es default hr]
  conv_lhs => rw [hlist]
  simp only [← Multiset.coe_add, ← Multiset.cons_coe, ← Multiset.singleton_add]
  abel

theorem splitEntries_spec :
    ∀ (m M : ℤ) (es L R : List REntry),
      2 ≤ m → 2 * m ≤ M → (es.length : ℤ) = M + 1 →
      splitEntries m es = some (L, R) →
      ((L : Multiset REntry) + (R : Multiset REntry) = (es : Multiset REntry)) ∧
      m ≤ (L.length : ℤ) ∧ (L.length : ℤ) ≤ M ∧ m ≤ (R.length : ℤ) ∧ (R.length : ℤ) ≤ M := by
  intro m M es L R hm hM hlen h
  rw [splitEntries] at h
  split_ifs at h with hc
  obtain ⟨hlr, hr⟩ := hc
  simp only [Option.some.injEq] at h
  set rml := es.take (pickSeeds es).1 ++
      (es.drop ((pickSeeds es).1 + 1)).take ((pickSeeds es).2 - ((pickSeeds es).1 + 1)) ++
      es.drop ((pickSeeds es).2 + 1) with hrml
  have hms := splitRemove_multiset es (pickSeeds es).1 (pickSeeds es).2 hlr hr
  rw [← hrml] at hms
  have hcard := congrArg Multiset.card hms
  simp only [Multiset.card_cons, Multiset.coe_card] at hcard
  have hrl : (rml.length : ℤ) = M - 1 := by omega
  obtain ⟨d1, d2, d3, d4⟩ := distribute_spec rml.length rml
    [es.getD (pickSeeds es).1 default] [es.getD (pickSeeds es).2 default] m rfl
    (by simp only [List.length_cons, List.length_nil]; omega)
    (by simp only [List.length_cons, List.length_nil]; omega)
    (by simp only [List.length_cons, List.length_nil]; omega)
  rw [h] at d1 d2 d3 d4
  dsimp only at d1 d2 d3 d4
  simp only [List.length_cons, List.length_nil] at d4
  refine ⟨?_, d2, by omega, d3, by omega⟩
  rw [d1, hms]
  simp only [← Multiset.cons_coe, ← Multiset.singleton_add, Multiset.coe_nil]
  abel

/-- Claim C1, counterexample: a node with MaxChildren + 1 = 5 entries of a
tree configured with MinChildren = 2, MaxChildren = 4 (so 2 ≤ m ≤ M/2) on
which split panics instead of returning two groups: all five entries are the
same rectangle of size 2, every pair wastes -2, pickSeeds returns (0, 0) and
the slice entries[1:0] is out of range. -/
theorem c1_split_counterexample :
    splitNode 2 9 dupNode = none ∧
    (dupNode.ents.length : ℤ) = 4 + 1 ∧ (2 : ℤ) ≤ 2 ∧ 2 * 2 ≤ (4 : ℤ) :=
  ⟨rfl, rfl, by decide, by decide⟩

/-- Claim C1 as amended: for every node holding exactly MaxChildren + 1
entries of a tree with 2 ≤ MinChildren ≤ MaxChildren / 2, provided some pair
of its entries has wasted space exceeding the -1.0 that pickSeeds starts
from (otherwise split panics), split returns two nodes whose entry lists
partition the original entry multiset exactly and whose sizes both lie
within [MinChildren, MaxChildren]. -/
theorem c1_split_partition_and_sizes :
    ∀ (m M : ℤ) (c : ℕ) (n : RNode),
      2 ≤ m → 2 * m ≤ M → (n.ents.length : ℤ) = M + 1 →
      (∃ i j, i < j ∧ j < n.ents.length ∧ -1 < pairWaste n.ents i j) →
      ∃ L R c', splitNode m c n = some (L, R, c') ∧
        ((L.ents : Multiset REntry) + (R.ents : Multiset REntry) = (n.ents : Multiset REntry)) ∧
        m ≤ (L.ents.length : ℤ) ∧ (L.ents.length : ℤ) ≤ M ∧
        m ≤ (R.ents.length : ℤ) ∧ (R.ents.length : ℤ) ≤ M := by
  intro m M c n hm hM hlen hex
  obtain ⟨h1, h2, -⟩ := pickSeeds_spec n.ents hex
  obtain ⟨⟨L0, R0⟩, hse⟩ : ∃ p, splitEntries m n.ents = some p :=
    ⟨_, by rw [splitEntries]; rw [if_pos ⟨h1, h2⟩]⟩
  obtain ⟨s1, s2, s3, s4, s5⟩ := splitEntries_spec m M n.ents L0 R0 hm hM hlen hse
  refine ⟨RNode.mk n.addr n.parentAddr n.isLeaf (EList.ofL L0),
    RNode.mk c n.parentAddr n.isLeaf (EList.ofL R0), c + 1, ?_, ?_⟩
  · rw [splitNode, hse]
    rfl
  · simp only [RNode.ents, RNode.entries, toL_ofL]
    exact ⟨s1, s2, s3, s4, s5⟩

/-- Witness for C1 at a concrete overflowing leaf: five distinct points with
m = 2, M = 4; the far pair wastes 4 > -1, and split succeeds with groups of
sizes within [2, 4]. -/
theorem c1_split_partition_and_sizes_witness :
    (2 : ℤ) ≤ 2 ∧ 2 * 2 ≤ (4 : ℤ) ∧
    (((RNode.mk 0 none true (EList.ofL c1es)).ents.length : ℤ) = 4 + 1) ∧
    (∃ L R c', splitNode 2 9 (RNode.mk 0 none true (EList.ofL c1es)) = some (L, R, c') ∧
      ((L.ents : Multiset REntry) + (R.ents : Multiset REntry) =
        ((RNode.mk 0 none true (EList.ofL c1es)).ents : Multiset REntry)) ∧
      (2 : ℤ) ≤ (L.ents.length : ℤ) ∧ (L.ents.length : ℤ) ≤ 4 ∧
      (2 : ℤ) ≤ (R.ents.length : ℤ) ∧ (R.ents.length : ℤ) ≤ 4) :=
  ⟨by decide, by decide, by decide,
    c1_split_partition_and_sizes 2 4 9 (RNode.mk 0 none true (EList.ofL c1es))
      (by decide) (by decide) (by decide)
      ⟨0, 4, by decide, by decide, by decide⟩⟩

/-! C8: the structural invariant is preserved by every completed operation. -/

theorem EList.len_toL : ∀ es : EList, es.len = es.toL.length
  | .nil => rfl
  | .consN _ c rest => by simp [EList.len, EList.toL, EList.len_toL rest]
  | .consO _ _ rest => by simp [EList.len, EList.toL, EList.len_toL rest]

theorem countsKidsL_iff (m M : ℤ) :
    ∀ es : EList, es.countsKidsL m M = true ↔ ∀ e ∈ es.toL, entryKidsOK m M e
  | .nil => by simp [EList.countsKidsL, EList.toL]
  | .consN b c rest => by
    simp only [EList.countsKidsL, EList.toL, Bool.and_eq_true, List.mem_cons,
      countsKidsL_iff m M rest]
    constructor
    · rintro ⟨h1, h2⟩ e (rfl | he)
      · exact h1
      · exact h2 e he
    · intro h
      exact ⟨h _ (Or.inl rfl), fun e he => h e (Or.inr he)⟩
  | .consO b o rest => by
    simp only [EList.countsKidsL, EList.toL, List.mem_cons, countsKidsL_iff m M rest]
    constructor
    · rintro h e (rfl | he)
      · exact trivial
      · exact h e he
    · intro h e he
      exact h e (Or.inr he)

theorem bbOKL_iff :
    ∀ es : EList, es.bbOKL = true ↔ ∀ e ∈ es.toL, entryBBOK e
  | .nil => by simp [EList.bbOKL, EList.toL]
  | .consN b c rest => by
    simp only [EList.bbOKL, EList.toL, Bool.and_eq_true, List.mem_cons, bbOKL_iff rest,
      decide_eq_true_eq]
    constructor
    · rintro ⟨⟨h1, h2⟩, h3⟩ e (rfl | he)
      · exact ⟨h1, h2⟩
      · exact h3 e he
    · intro h
      exact ⟨h _ (Or.inl rfl), fun e he => h e (Or.inr he)⟩
  | .consO b o rest => by
    simp only [EList.bbOKL, EList.toL, Bool.and_eq_true, List.mem_cons, bbOKL_iff rest,
      decide_eq_true_eq]
    constructor
    · rintro ⟨h1, h2⟩ e (rfl | he)
      · exact h1
      · exact h2 e he
    · intro h
      exact ⟨h _ (Or.inl rfl), fun e he => h e (Or.inr he)⟩

theorem allH_iff (h : ℕ) :
    ∀ es : EList, es.allH h = true ↔ ∀ e ∈ es.toL, EntryH h e
  | .nil => by simp [EList.allH, EList.toL]
  | .consN b c rest => by
    simp only [EList.allH, EList.toL, Bool.and_eq_true, List.mem_cons, allH_iff h rest,
      decide_eq_true_eq]
    constructor
    · rintro ⟨h1, h2⟩ e (rfl | he)
      · exact h1
      · exact h2 e he
    · intro hh
      exact ⟨hh _ (Or.inl rfl), fun e he => hh e (Or.inr he)⟩
  | .consO b o rest => by
    simp [EList.allH, EList.toL, EntryH]

theorem heightL_iff (h : ℕ) :
    ∀ es : EList, es.heightL = some h ↔ (es.toL ≠ [] ∧ ∀ e ∈ es.toL, EntryH h e) := by
  intro es
  match es with
  | .nil => simp [EList.heightL, EList.toL]
  | .consN b c rest =>
    rw [EList.heightL]
    constructor
    · intro hh
      split at hh
      · exact Option.noConfusion hh
      · rename_i h' hc
        split_ifs at hh with ha
        simp only [Option.some.injEq] at hh
        subst hh
        refine ⟨by simp [EList.toL], ?_⟩
        intro e he
        rw [EList.toL, List.mem_cons] at he
        rcases he with rfl | he
        · exact hc
        · exact (allH_iff h' rest).mp ha e he
    · rintro ⟨-, hall⟩
      have hc : EntryH h (REntry.child b c) := hall _ (by simp [EList.toL])
      rw [EntryH] at hc
      rw [hc]
      dsimp only
      rw [if_pos ((allH_iff h rest).mpr (fun e he => hall e (by simp [EList.toL, he])))]
  | .consO b o rest =>
    simp only [EList.heightL, EList.toL]
    constructor
    · intro hh
      exact Option.noConfusion hh
    · rintro ⟨-, hall⟩
      have := hall (REntry.obj b o) (by simp)
      rw [EntryH] at this
      exact absurd this (fun h => h)

theorem ents_mk (a : ℕ) (pa : Option ℕ) (lf : Bool) (es : EList) :
    (RNode.mk a pa lf es).ents = es.toL := rfl

theorem heightB_true (a : ℕ) (pa : Option ℕ) (es : EList) :
    (RNode.mk a pa true es).heightB = some 1 := rfl

theorem heightB_false_iff (a : ℕ) (pa : Option ℕ) (es : EList) (h : ℕ) :
    (RNode.mk a pa false es).heightB = some (h + 1) ↔
      (es.toL ≠ [] ∧ ∀ e ∈ es.toL, EntryH h e) := by
  rw [← heightL_iff]
  rw [RNode.heightB]
  cases hes : es.heightL with
  | none => simp
  | some h' =>
    simp only [Option.map_some', Option.some.injEq]
    omega

theorem heightB_false_exists (a : ℕ) (pa : Option ℕ) (es : EList) (h : ℕ)
    (hh : (RNode.mk a pa false es).heightB = some h) :
    ∃ h', h = h' + 1 ∧ es.heightL = some h' := by
  rw [RNode.heightB] at hh
  cases hes : es.heightL with
  | none => rw [hes] at hh; exact Option.noConfusion hh
  | some h' =>
    rw [hes] at hh
    simp only [Option.map_some', Option.some.injEq] at hh
    exact ⟨h', hh.symm, rfl⟩

theorem countsOK_iff (m M : ℤ) (a : ℕ) (pa : Option ℕ) (lf : Bool) (es : EList) :
    (RNode.mk a pa lf es).countsOK m M = true ↔
      (m ≤ (es.toL.length : ℤ) ∧ (es.toL.length : ℤ) ≤ M ∧
        ∀ e ∈ es.toL, entryKidsOK m M e) := by
  rw [RNode.countsOK]
  simp only [Bool.and_eq_true, decide_eq_true_eq, countsKidsL_iff, EList.len_toL]
  tauto

theorem bbOK_iff (a : ℕ) (pa : Option ℕ) (lf : Bool) (es : EList) :
    (RNode.mk a pa lf es).bbOK = true ↔ ∀ e ∈ es.toL, entryBBOK e := by
  rw [RNode.bbOK, bbOKL_iff]

theorem computeBB_mk (a : ℕ) (pa : Option ℕ) (lf : Bool) (l : List REntry) :
    computeBB (RNode.mk a pa lf (EList.ofL l)) = boundingBoxN (entryBBs l) := by
  rw [computeBB, ents_mk, toL_ofL]

theorem repack_heightB (x : RNode) (a : ℕ) (pa : Option ℕ) :
    (RNode.mk a pa x.isLeaf x.entries).heightB = x.heightB := by
  obtain ⟨a', pa', lf, es⟩ := x
  cases lf <;> rfl

theorem repack_bbOK (x : RNode) (a : ℕ) (pa : Option ℕ) :
    (RNode.mk a pa x.isLeaf x.entries).bbOK = x.bbOK := by
  obtain ⟨a', pa', lf, es⟩ := x
  cases lf <;> rfl

theorem repack_countsOK (m M : ℤ) (x : RNode) (a : ℕ) (pa : Option ℕ) :
    (RNode.mk a pa x.isLeaf x.entries).countsOK m M = x.countsOK m M := by
  obtain ⟨a', pa', lf, es⟩ := x
  cases lf <;> rfl

theorem repack_ents (x : RNode) (a : ℕ) (pa : Option ℕ) :
    (RNode.mk a pa x.isLeaf x.entries).ents = x.ents := by
  obtain ⟨a', pa', lf, es⟩ := x
  cases lf <;> rfl

theorem repack_computeBB (x : RNode) (a : ℕ) (pa : Option ℕ) :
    computeBB (RNode.mk a pa x.isLeaf x.entries) = computeBB x := by
  obtain ⟨a', pa', lf, es⟩ := x
  cases lf <;> rfl

theorem chainS_snoc (m M : ℤ) :
    ∀ (st : List Frame) (h0 : ℕ) (f : Frame),
      FramesChainS m M st h0 → FrameOK m M (h0 + st.length) f →
      m ≤ (frameCount f : ℤ) → (frameCount f : ℤ) ≤ M →
      FramesChainS m M (st ++ [f]) h0 := by
  intro st
  induction st with
  | nil =>
    intro h0 f hchain hok hlo hhi
    exact ⟨by simpa using hok, hlo, hhi, trivial⟩
  | cons g st ih =>
    intro h0 f hchain hok hlo hhi
    obtain ⟨hg1, hg2, hg3, hrest⟩ := hchain
    refine ⟨hg1, hg2, hg3, ih (h0 + 1) f hrest ?_ hlo hhi⟩
    have harith : h0 + (g :: st).length = h0 + 1 + st.length := by
      simp [List.length_cons]
      omega
    rw [← harith]
    exact hok

theorem chain_snoc (m M : ℤ) :
    ∀ (st : List Frame) (h0 : ℕ) (f : Frame),
      FramesChainS m M st h0 → FrameOK m M (h0 + st.length) f →
      (frameCount f : ℤ) ≤ M →
      FramesChain m M (st ++ [f]) h0 := by
  intro st
  induction st with
  | nil =>
    intro h0 f hchain hok hhi
    exact ⟨by simpa using hok, hhi, fun hne => absurd rfl hne, trivial⟩
  | cons g st ih =>
    intro g0 f hchain hok hhi
    obtain ⟨hg1, hg2, hg3, hrest⟩ := hchain
    refine ⟨hg1, hg3, fun _ => hg2, ih (g0 + 1) f hrest ?_ hhi⟩
    have harith : g0 + (g :: st).length = g0 + 1 + st.length := by
      simp [List.length_cons]
      omega
    rw [← harith]
    exact hok

theorem descend_spec (m M : ℤ) :
    ∀ (fuel : ℕ) (n : RNode) (h : ℕ) (r : Rect) (frames : List Frame) (leaf : RNode),
      n.heightB = some h → n.countsOK m M = true → n.bbOK = true → h ≤ fuel →
      chooseLeafPath fuel n r = some (frames, leaf) →
      leaf.isLeaf = true ∧ leaf.countsOK m M = true ∧ leaf.bbOK = true ∧
      FramesChainS m M frames 1 ∧ frames.length + 1 = h := by
  intro fuel
  induction fuel with
  | zero => intro n h r frames leaf _ _ _ _ hclp; exact Option.noConfusion hclp
  | succ fuel ih =>
    intro n h r frames leaf hh hcnt hbb hfuel hclp
    obtain ⟨a, pa, lf, es⟩ := n
    cases lf with
    | true =>
      rw [chooseLeafPath] at hclp
      rw [if_pos (show (RNode.mk a pa true es).isLeaf = true from rfl)] at hclp
      simp only [Option.some.injEq, Prod.mk.injEq] at hclp
      obtain ⟨rfl, rfl⟩ := hclp
      rw [heightB_true] at hh
      simp only [Option.some.injEq] at hh
      subst hh
      exact ⟨rfl, hcnt, hbb, trivial, rfl⟩
    | false =>
      rw [chooseLeafPath] at hclp
      rw [if_neg (by simp [RNode.isLeaf])] at hclp
      obtain ⟨h', rfl, hl⟩ := heightB_false_exists a pa es h hh
      obtain ⟨hne, hall⟩ := (heightL_iff h' es).mp hl
      split at hclp
      · exact Option.noConfusion hclp
      · rename_i i hidx
        split at hclp
        · rename_i bb c hget
          simp only [Option.map_eq_some', Prod.mk.injEq] at hclp
          obtain ⟨⟨st, leaf'⟩, hrec, heq1, heq2⟩ := hclp
          subst heq1
          subst heq2
          have hmem : REntry.child bb c ∈ es.toL := List.get?_mem hget
          have hilt : i < es.toL.length := (List.get?_eq_some.mp hget).1
          have hch : c.heightB = some h' := hall _ hmem
          obtain ⟨hm1, hm2, hkids⟩ := (countsOK_iff m M a pa false es).mp hcnt
          have hbbl := (bbOK_iff a pa false es).mp hbb
          have hcc : c.countsOK m M = true := hkids _ hmem
          have hcb : c.bbOK = true := (hbbl _ hmem).2
          obtain ⟨l1, l2, l3, l4, l5⟩ := ih c h' r st leaf' hch hcc hcb (by omega) hrec
          simp only [RNode.addr, RNode.parentAddr, ents_mk] at hidx hget ⊢
          refine ⟨l1, l2, l3, ?_, ?_⟩
          · refine chainS_snoc m M st 1 _ l4 ?_ ?_ ?_
            · have hst : 1 + st.length = h' := by omega
              rw [hst]
              intro e he
              have hemem : e ∈ es.toL := by
                rcases List.mem_append.mp he with he' | he'
                · exact List.mem_of_mem_take he'
                · exact List.mem_of_mem_drop he'
              have hee := hall e hemem
              cases e with
              | child bb' c' =>
                rw [EntryH] at hee
                exact ⟨hee, hkids _ hemem, (hbbl _ hemem).2, (hbbl _ hemem).1⟩
              | obj bb' o' =>
                rw [EntryH] at hee
                exact absurd hee (fun hx => hx)
            · have hfc : frameCount ⟨a, pa, es.toL.take i, bb, es.toL.drop (i + 1)⟩ =
                  es.toL.length := by
                rw [frameCount]
                simp only [List.length_take, List.length_drop]
                omega
              rw [hfc]
              omega
            · have hfc : frameCount ⟨a, pa, es.toL.take i, bb, es.toL.drop (i + 1)⟩ =
                  es.toL.length := by
                rw [frameCount]
                simp only [List.length_take, List.length_drop]
                omega
              rw [hfc]
              omega
          · simp only [List.length_append, List.length_cons, List.length_nil]
            omega
        · exact Option.noConfusion hclp

theorem descend_root_spec (m M : ℤ) :
    ∀ (fuel : ℕ) (n : RNode) (h : ℕ) (r : Rect) (frames : List Frame) (leaf : RNode),
      n.heightB = some h → n.entries.countsKidsL m M = true → n.bbOK = true →
      ((n.ents.length : ℤ) ≤ M) → h ≤ fuel →
      chooseLeafPath fuel n r = some (frames, leaf) →
      leaf.isLeaf = true ∧ leaf.bbOK = true ∧
      FramesChain m M frames 1 ∧
      ((frames = [] ∧ leaf = n) ∨ (frames ≠ [] ∧ leaf.countsOK m M = true)) := by
  intro fuel n h r frames leaf hh hkid hbb hct hfuel hclp
  cases fuel with
  | zero => exact Option.noConfusion hclp
  | succ fuel =>
    obtain ⟨a, pa, lf, es⟩ := n
    cases lf with
    | true =>
      rw [chooseLeafPath] at hclp
      rw [if_pos (show (RNode.mk a pa true es).isLeaf = true from rfl)] at hclp
      simp only [Option.some.injEq, Prod.mk.injEq] at hclp
      obtain ⟨rfl, rfl⟩ := hclp
      exact ⟨rfl, hbb, trivial, Or.inl ⟨rfl, rfl⟩⟩
    | false =>
      rw [chooseLeafPath] at hclp
      rw [if_neg (by simp [RNode.isLeaf])] at hclp
      obtain ⟨h', rfl, hl⟩ := heightB_false_exists a pa es h hh
      obtain ⟨hne, hall⟩ := (heightL_iff h' es).mp hl
      split at hclp
      · exact Option.noConfusion hclp
      · rename_i i hidx
        split at hclp
        · rename_i bb c hget
          simp only [Option.map_eq_some', Prod.mk.injEq] at hclp
          obtain ⟨⟨st, leaf'⟩, hrec, heq1, heq2⟩ := hclp
          subst heq1
          subst heq2
          have hmem : REntry.child bb c ∈ es.toL := List.get?_mem hget
          have hilt : i < es.toL.length := (List.get?_eq_some.mp hget).1
          have hch : c.heightB = some h' := hall _ hmem
          have hkids := (countsKidsL_iff m M es).mp hkid
          have hbbl := (bbOK_iff a pa false es).mp hbb
          have hcc : c.countsOK m M = true := hkids _ hmem
          have hcb : c.bbOK = true := (hbbl _ hmem).2
          obtain ⟨l1, l2, l3, l4, l5⟩ :=
            descend_spec m M fuel c h' r st leaf' hch hcc hcb (by omega) hrec
          simp only [RNode.addr, RNode.parentAddr, ents_mk] at hidx hget hct ⊢
          refine ⟨l1, l3, ?_, Or.inr ⟨by simp, l2⟩⟩
          refine chain_snoc m M st 1 _ l4 ?_ ?_
          · have hst : 1 + st.length = h' := by omega
            rw [hst]
            intro e he
            have hemem : e ∈ es.toL := by
              rcases List.mem_append.mp he with he' | he'
              · exact List.mem_of_mem_take he'
              · exact List.mem_of_mem_drop he'
            have hee := hall e hemem
            cases e with
            | child bb' c' =>
              rw [EntryH] at hee
              exact ⟨hee, hkids _ hemem, (hbbl _ hemem).2, (hbbl _ hemem).1⟩
            | obj bb' o' =>
              rw [EntryH] at hee
              exact absurd hee (fun hx => hx)
          · have hfc : frameCount ⟨a, pa, es.toL.take i, bb, es.toL.drop (i + 1)⟩ =
                es.toL.length := by
              rw [frameCount]
              simp only [List.length_take, List.length_drop]
              omega
            rw [hfc]
            omega
        · exact Option.noConfusion hclp

theorem countsOK_of (m M : ℤ) (n : RNode) (h1 : m ≤ (n.ents.length : ℤ))
    (h2 : (n.ents.length : ℤ) ≤ M) (h3 : n.entries.countsKidsL m M = true) :
    n.countsOK m M = true := by
  obtain ⟨a, pa, lf, es⟩ := n
  rw [countsOK_iff]
  exact ⟨h1, h2, (countsKidsL_iff m M es).mp h3⟩

theorem mem_msplit_left {L R es : List REntry}
    (h : (L : Multiset REntry) + (R : Multiset REntry) = (es : Multiset REntry)) :
    ∀ e ∈ L, e ∈ es := by
  intro e he
  have : e ∈ (L : Multiset REntry) + (R : Multiset REntry) :=
    Multiset.mem_add.mpr (Or.inl (Multiset.mem_coe.mpr he))
  rw [h] at this
  exact Multiset.mem_coe.mp this

theorem mem_msplit_right {L R es : List REntry}
    (h : (L : Multiset REntry) + (R : Multiset REntry) = (es : Multiset REntry)) :
    ∀ e ∈ R, e ∈ es := by
  intro e he
  have : e ∈ (L : Multiset REntry) + (R : Multiset REntry) :=
    Multiset.mem_add.mpr (Or.inr (Multiset.mem_coe.mpr he))
  rw [h] at this
  exact Multiset.mem_coe.mp this

/-- An entry is "good" at height h when it can sit in a well-formed internal
node whose children have height h. -/
def GoodEntry (m M : ℤ) (h : ℕ) (e : REntry) : Prop :=
  EntryH h e ∧ entryKidsOK m M e ∧ entryBBOK e

theorem good_of_entryInvC (m M : ℤ) (h : ℕ) (e : REntry) (he : EntryInvC m M h e) :
    GoodEntry m M h e := by
  cases e with
  | child bb c =>
    obtain ⟨h1, h2, h3, h4⟩ := he
    exact ⟨h1, h2, ⟨h4, h3⟩⟩
  | obj bb o => exact absurd he (fun hx => hx)

theorem good_child (m M : ℤ) (h : ℕ) (n : RNode)
    (hn : n.heightB = some h) (hnb : n.bbOK = true)
    (hnk : n.entries.countsKidsL m M = true)
    (hnm : m ≤ (n.ents.length : ℤ)) (hnM : (n.ents.length : ℤ) ≤ M) :
    GoodEntry m M h (REntry.child (computeBB n) n) :=
  ⟨hn, countsOK_of m M n hnm hnM hnk, ⟨rfl, hnb⟩⟩

theorem built_node_facts (m M : ℤ) (a : ℕ) (pa : Option ℕ) (l : List REntry) (h : ℕ)
    (hne : l ≠ []) (hall : ∀ e ∈ l, GoodEntry m M h e) :
    (RNode.mk a pa false (EList.ofL l)).heightB = some (h + 1) ∧
    (RNode.mk a pa false (EList.ofL l)).bbOK = true ∧
    (RNode.mk a pa false (EList.ofL l)).entries.countsKidsL m M = true ∧
    (RNode.mk a pa false (EList.ofL l)).ents = l := by
  refine ⟨?_, ?_, ?_, by rw [ents_mk, toL_ofL]⟩
  · rw [heightB_false_iff, toL_ofL]
    exact ⟨hne, fun e he => (hall e he).1⟩
  · rw [bbOK_iff, toL_ofL]
    exact fun e he => (hall e he).2.2
  · show (EList.ofL l).countsKidsL m M = true
    rw [countsKidsL_iff, toL_ofL]
    exact fun e he => (hall e he).2.1

theorem ne_nil_of_two_le {l : List REntry} {m : ℤ} (hm : 2 ≤ m)
    (h : m ≤ (l.length : ℤ)) : l ≠ [] := by
  intro hl
  subst hl
  simp at h
  omega

theorem adjustUp_spec (m M : ℤ) (hm : 2 ≤ m) (hM : 2 * m ≤ M) :
    ∀ (frames : List Frame) (h c : ℕ) (n : RNode) (nn : Option RNode)
      (root' : RNode) (sroot : Option RNode) (c' : ℕ),
      FramesChain m M frames h →
      n.heightB = some h → n.bbOK = true → n.entries.countsKidsL m M = true →
      ((n.ents.length : ℤ) ≤ M) →
      (frames ≠ [] → m ≤ (n.ents.length : ℤ)) →
      (∀ nx, nn = some nx → nx.heightB = some h ∧ nx.bbOK = true ∧
        nx.entries.countsKidsL m M = true ∧ m ≤ (nx.ents.length : ℤ) ∧
        (nx.ents.length : ℤ) ≤ M ∧ m ≤ (n.ents.length : ℤ)) →
      adjustUp m M c frames n nn = some (root', sroot, c') →
      (root'.heightB = some (h + frames.length) ∧ root'.bbOK = true ∧
        root'.entries.countsKidsL m M = true ∧ (root'.ents.length : ℤ) ≤ M) ∧
      (∀ nx', sroot = some nx' → nx'.heightB = some (h + frames.length) ∧
        nx'.bbOK = true ∧ nx'.entries.countsKidsL m M = true ∧
        m ≤ (nx'.ents.length : ℤ) ∧ (nx'.ents.length : ℤ) ≤ M ∧
        m ≤ (root'.ents.length : ℤ)) := by
  intro frames
  induction frames with
  | nil =>
    intro h c n nn root' sroot c' hchain hh hbb hkid hct hlow hnn hadj
    rw [adjustUp] at hadj
    simp only [Option.some.injEq, Prod.mk.injEq] at hadj
    obtain ⟨rfl, rfl, rfl⟩ := hadj
    simp only [List.length_nil, Nat.add_zero]
    exact ⟨⟨hh, hbb, hkid, hct⟩, fun nx' hs => hnn nx' hs⟩
  | cons f rest ih =>
    intro h c n nn root' sroot c' hchain hh hbb hkid hct hlow hnn hadj
    obtain ⟨hfok, hfM, hfm, hrest⟩ := hchain
    rw [adjustUp] at hadj
    split_ifs at hadj with hpa
    have harith : h + (f :: rest).length = (h + 1) + rest.length := by
      simp only [List.length_cons]
      omega
    rw [harith]
    have hnm : m ≤ (n.ents.length : ℤ) := hlow (List.cons_ne_nil f rest)
    cases nn with
    | none =>
      have hgood : ∀ e ∈ f.ileft ++ REntry.child (computeBB n) n :: f.iright,
          GoodEntry m M h e := by
        intro e he
        rcases List.mem_append.mp he with he' | he'
        · exact good_of_entryInvC m M h e (hfok e (List.mem_append.mpr (Or.inl he')))
        · rcases List.mem_cons.mp he' with rfl | he''
          · exact good_child m M h n hh hbb hkid hnm hct
          · exact good_of_entryInvC m M h e (hfok e (List.mem_append.mpr (Or.inr he'')))
      obtain ⟨b1, b2, b3, b4⟩ := built_node_facts m M f.addr f.parentAddr
        (f.ileft ++ REntry.child (computeBB n) n :: f.iright) h (by simp) hgood
      have hlen : (((f.ileft ++ REntry.child (computeBB n) n :: f.iright).length : ℤ)) =
          (frameCount f : ℤ) := by
        rw [frameCount]
        push_cast
        simp only [List.length_append, List.length_cons]
        push_cast
        omega
      exact ih (h + 1) c _ none root' sroot c' hrest b1 b2 b3
        (by rw [b4, hlen]; exact hfM)
        (fun hne => by rw [b4, hlen]; exact hfm hne)
        (fun nx hx => Option.noConfusion hx) hadj
    | some nx =>
      dsimp only at hadj
      obtain ⟨x1, x2, x3, x4, x5, x6⟩ := hnn nx rfl
      have hgood : ∀ e ∈ (f.ileft ++ REntry.child (computeBB n) n :: f.iright) ++
          [REntry.child (computeBB nx) nx], GoodEntry m M h e := by
        intro e he
        rcases List.mem_append.mp he with he' | he'
        · rcases List.mem_append.mp he' with he2 | he2
          · exact good_of_entryInvC m M h e (hfok e (List.mem_append.mpr (Or.inl he2)))
          · rcases List.mem_cons.mp he2 with rfl | he3
            · exact good_child m M h n hh hbb hkid x6 hct
            · exact good_of_entryInvC m M h e (hfok e (List.mem_append.mpr (Or.inr he3)))
        · rcases List.mem_singleton.mp he' with rfl
          exact good_child m M h nx x1 x2 x3 x4 x5
      have hlen2 : (((f.ileft ++ REntry.child (computeBB n) n :: f.iright) ++
          [REntry.child (computeBB nx) nx]).length : ℤ) =
          (frameCount f : ℤ) + 1 := by
        rw [frameCount]
        simp only [List.length_append, List.length_cons, List.length_nil]
        push_cast
        omega
      split_ifs at hadj with hover
      · -- parent overflows: split it
        split at hadj
        · exact Option.noConfusion hadj
        · rename_i l rr c2 hsn
          rw [splitNode, Option.map_eq_some'] at hsn
          obtain ⟨⟨L0, R0⟩, hse, heq⟩ := hsn
          simp only [Prod.mk.injEq] at heq
          obtain ⟨heql, heqr, heqc⟩ := heq
          rw [ents_mk, toL_ofL] at hse
          have hlenM1 : ((((f.ileft ++ REntry.child (computeBB n) n :: f.iright) ++
              [REntry.child (computeBB nx) nx]).length : ℤ)) = M + 1 := by
            rw [hlen2]
            omega
          obtain ⟨s1, s2, s3, s4, s5⟩ := splitEntries_spec m M _ L0 R0 hm hM hlenM1 hse
          have hgoodL : ∀ e ∈ L0, GoodEntry m M h e :=
            fun e he => hgood e (mem_msplit_left s1 e he)
          have hgoodR : ∀ e ∈ R0, GoodEntry m M h e :=
            fun e he => hgood e (mem_msplit_right s1 e he)
          obtain ⟨bl1, bl2, bl3, bl4⟩ := built_node_facts m M f.addr f.parentAddr L0 (h)
            (ne_nil_of_two_le hm s2) hgoodL
          obtain ⟨br1, br2, br3, br4⟩ := built_node_facts m M c f.parentAddr R0 (h)
            (ne_nil_of_two_le hm s4) hgoodR
          subst heql
          subst heqr
          exact ih (h + 1) c2 (RNode.mk f.addr f.parentAddr false (EList.ofL L0))
            (some (RNode.mk c f.parentAddr false (EList.ofL R0))) root' sroot c' hrest
            bl1 bl2 bl3
            (by rw [bl4]; exact s3)
            (fun _ => by rw [bl4]; exact s2)
            (fun nx' hx => by
              cases hx
              exact ⟨br1, br2, br3, by rw [br4]; exact s4, by rw [br4]; exact s5,
                by rw [bl4]; exact s2⟩) hadj
      · -- parent absorbs the sibling entry
        obtain ⟨b1, b2, b3, b4⟩ := built_node_facts m M f.addr f.parentAddr
          ((f.ileft ++ REntry.child (computeBB n) n :: f.iright) ++
            [REntry.child (computeBB nx) nx]) h (by simp) hgood
        exact ih (h + 1) c _ none root' sroot c' hrest b1 b2 b3
          (by rw [b4]; omega)
          (fun hne => by rw [b4, hlen2]; have := hfm hne; omega)
          (fun nx' hx => Option.noConfusion hx) hadj

mutual
theorem height_le_ns : ∀ (n : RNode) (h : ℕ), n.heightB = some h → h ≤ n.ns
  | .mk a pa true es, h, hh => by
    rw [heightB_true] at hh
    simp only [Option.some.injEq] at hh
    rw [RNode.ns]
    omega
  | .mk a pa false es, h, hh => by
    obtain ⟨h', rfl, hl⟩ := heightB_false_exists a pa es h hh
    have := heightL_le_ns es h' hl
    rw [RNode.ns]
    omega
theorem heightL_le_ns : ∀ (es : EList) (h : ℕ), es.heightL = some h → h ≤ es.ns
  | .nil, h, hh => Option.noConfusion hh
  | .consN b c rest, h, hh => by
    rw [EList.heightL] at hh
    split at hh
    · exact Option.noConfusion hh
    · rename_i h' hc
      split_ifs at hh
      simp only [Option.some.injEq] at hh
      subst hh
      have := height_le_ns c h' hc
      rw [EList.ns]
      omega
  | .consO b o rest, h, hh => Option.noConfusion hh
end

theorem countsOK_kids (m M : ℤ) (n : RNode) (h : n.countsOK m M = true) :
    n.entries.countsKidsL m M = true := by
  obtain ⟨a, pa, lf, es⟩ := n
  rw [countsOK_iff] at h
  exact (countsKidsL_iff m M es).mpr h.2.2

theorem countsOK_bounds (m M : ℤ) (n : RNode) (h : n.countsOK m M = true) :
    m ≤ (n.ents.length : ℤ) ∧ (n.ents.length : ℤ) ≤ M := by
  obtain ⟨a, pa, lf, es⟩ := n
  rw [countsOK_iff] at h
  exact ⟨h.1, h.2.1⟩

theorem leafPlus_facts (m M : ℤ) (leaf : RNode) (o : SpatialObj)
    (hleaf : leaf.isLeaf = true) (hbb : leaf.bbOK = true)
    (hkid : leaf.entries.countsKidsL m M = true) :
    (leafPlus leaf o).heightB = some 1 ∧ (leafPlus leaf o).bbOK = true ∧
    (leafPlus leaf o).entries.countsKidsL m M = true ∧
    (leafPlus leaf o).ents = leaf.ents ++ [REntry.obj o.bounds o] ∧
    (leafPlus leaf o).isLeaf = true := by
  obtain ⟨a, pa, lf, es⟩ := leaf
  cases lf with
  | false => exact absurd hleaf (by simp [RNode.isLeaf])
  | true =>
    rw [leafPlus]
    refine ⟨heightB_true _ _ _, ?_, ?_, by rw [ents_mk, toL_ofL], rfl⟩
    · rw [bbOK_iff, toL_ofL]
      intro e he
      rcases List.mem_append.mp he with he' | he'
      · exact (bbOK_iff a pa true es).mp hbb e he'
      · rcases List.mem_singleton.mp he' with rfl
        exact rfl
    · show (EList.ofL _).countsKidsL m M = true
      rw [countsKidsL_iff, toL_ofL]
      intro e he
      rcases List.mem_append.mp he with he' | he'
      · exact (countsKidsL_iff m M es).mp hkid e he'
      · rcases List.mem_singleton.mp he' with rfl
        exact trivial

theorem finishRoot_inv (m M : ℤ) (hm : 2 ≤ m) (hM : 2 * m ≤ M) (t : RTree)
    (root' : RNode) (sroot : Option RNode) (c' : ℕ) (H : ℕ)
    (h1 : root'.heightB = some H) (h2 : root'.bbOK = true)
    (h3 : root'.entries.countsKidsL m M = true) (h4 : (root'.ents.length : ℤ) ≤ M)
    (h5 : ∀ nx', sroot = some nx' → nx'.heightB = some H ∧ nx'.bbOK = true ∧
      nx'.entries.countsKidsL m M = true ∧ m ≤ (nx'.ents.length : ℤ) ∧
      (nx'.ents.length : ℤ) ≤ M ∧ m ≤ (root'.ents.length : ℤ)) :
    TreeInv m M (finishRoot t (root', sroot, c')) := by
  cases sroot with
  | none => exact ⟨⟨H, h1⟩, h3, h2, h4⟩
  | some nx =>
    obtain ⟨x1, x2, x3, x4, x5, x6⟩ := h5 nx rfl
    rw [finishRoot]
    have hgood : ∀ e ∈
        [REntry.child (computeBB (RNode.mk c' (some 0) root'.isLeaf root'.entries))
          (RNode.mk c' (some 0) root'.isLeaf root'.entries),
         REntry.child (computeBB (RNode.mk nx.addr (some 0) nx.isLeaf nx.entries))
          (RNode.mk nx.addr (some 0) nx.isLeaf nx.entries)], GoodEntry m M H e := by
      intro e he
      rcases List.mem_cons.mp he with rfl | he'
      · refine good_child m M H _ ?_ ?_ ?_ ?_ ?_
        · rw [repack_heightB]; exact h1
        · rw [repack_bbOK]; exact h2
        · show (RNode.mk c' (some 0) root'.isLeaf root'.entries).entries.countsKidsL m M = true
          exact h3
        · rw [repack_ents]; exact x6
        · rw [repack_ents]; exact h4
      · rcases List.mem_singleton.mp he' with rfl
        refine good_child m M H _ ?_ ?_ ?_ ?_ ?_
        · rw [repack_heightB]; exact x1
        · rw [repack_bbOK]; exact x2
        · show (RNode.mk nx.addr (some 0) nx.isLeaf nx.entries).entries.countsKidsL m M = true
          exact x3
        · rw [repack_ents]; exact x4
        · rw [repack_ents]; exact x5
    obtain ⟨b1, b2, b3, b4⟩ := built_node_facts m M 0 none _ H (by simp) hgood
    refine ⟨⟨H + 1, b1⟩, b3, b2, ?_⟩
    rw [b4]
    simp only [List.length_cons, List.length_nil]
    omega

theorem bbOK_ents (n : RNode) (h : n.bbOK = true) : ∀ e ∈ n.ents, entryBBOK e := by
  obtain ⟨a, pa, lf, es⟩ := n
  exact (bbOK_iff a pa lf es).mp h

theorem kids_ents (m M : ℤ) (n : RNode) (h : n.entries.countsKidsL m M = true) :
    ∀ e ∈ n.ents, entryKidsOK m M e := by
  obtain ⟨a, pa, lf, es⟩ := n
  exact (countsKidsL_iff m M es).mp h

theorem built_leaf_facts (m M : ℤ) (a : ℕ) (pa : Option ℕ) (l : List REntry)
    (hall : ∀ e ∈ l, entryKidsOK m M e ∧ entryBBOK e) :
    (RNode.mk a pa true (EList.ofL l)).heightB = some 1 ∧
    (RNode.mk a pa true (EList.ofL l)).bbOK = true ∧
    (RNode.mk a pa true (EList.ofL l)).entries.countsKidsL m M = true ∧
    (RNode.mk a pa true (EList.ofL l)).ents = l := by
  refine ⟨heightB_true _ _ _, ?_, ?_, by rw [ents_mk, toL_ofL]⟩
  · rw [bbOK_iff, toL_ofL]
    exact fun e he => (hall e he).2
  · show (EList.ofL l).countsKidsL m M = true
    rw [countsKidsL_iff, toL_ofL]
    exact fun e he => (hall e he).1

theorem insertObj_params (t t' : RTree) (o : SpatialObj) (h : insertObj t o = some t') :
    t'.minChildren = t.minChildren ∧ t'.maxChildren = t.maxChildren := by
  rw [insertObj] at h
  split at h
  · exact Option.noConfusion h
  · split at h
    · exact Option.noConfusion h
    · rw [Option.map_eq_some'] at h
      obtain ⟨⟨root', sroot, c'⟩, _, rfl⟩ := h
      cases sroot <;> exact ⟨rfl, rfl⟩

theorem insertObj_TreeInv (t t' : RTree) (o : SpatialObj)
    (hm : 2 ≤ t.minChildren) (hM : 2 * t.minChildren ≤ t.maxChildren)
    (hinv : TreeInv t.minChildren t.maxChildren t)
    (h : insertObj t o = some t') :
    TreeInv t.minChildren t.maxChildren t' := by
  obtain ⟨⟨H, hH⟩, hkid, hbb, hct⟩ := hinv
  rw [insertObj] at h
  split at h
  · exact Option.noConfusion h
  · rename_i p frames leaf hclp
    obtain ⟨dl1, dl2, dchain, dcase⟩ :=
      descend_root_spec t.minChildren t.maxChildren t.root.ns t.root H o.bounds frames leaf
        hH hkid hbb hct (height_le_ns _ _ hH) hclp
    have hleafkid : leaf.entries.countsKidsL t.minChildren t.maxChildren = true := by
      rcases dcase with ⟨-, rfl⟩ | ⟨-, hcnt'⟩
      · exact hkid
      · exact countsOK_kids _ _ _ hcnt'
    have hleafct : (leaf.ents.length : ℤ) ≤ t.maxChildren := by
      rcases dcase with ⟨-, rfl⟩ | ⟨-, hcnt'⟩
      · exact hct
      · exact (countsOK_bounds _ _ _ hcnt').2
    obtain ⟨p1, p2, p3, p4, p5⟩ := leafPlus_facts t.minChildren t.maxChildren leaf o
      dl1 dl2 hleafkid
    split at h
    · exact Option.noConfusion h
    · rename_i q n nn c hsio
      rw [Option.map_eq_some'] at h
      obtain ⟨⟨root', sroot, c'⟩, hadj, rfl⟩ := h
      rw [splitIfOver] at hsio
      split_ifs at hsio with hov
      · -- the appended leaf overflows and is split
        rw [Option.map_eq_some'] at hsio
        obtain ⟨⟨L, R, c2⟩, hsn, heq⟩ := hsio
        simp only [Prod.mk.injEq] at heq
        obtain ⟨rfl, rfl, rfl⟩ := heq
        rw [p4] at hov
        have hlen1 : ((leafPlus leaf o).ents.length : ℤ) = t.maxChildren + 1 := by
          rw [p4]
          simp only [List.length_append, List.length_cons, List.length_nil] at hov ⊢
          push_cast at hov ⊢
          omega
        rw [splitNode, Option.map_eq_some'] at hsn
        obtain ⟨⟨L0, R0⟩, hse, heq2⟩ := hsn
        simp only [Prod.mk.injEq] at heq2
        obtain ⟨hL, hR, -⟩ := heq2
        obtain ⟨s1, s2, s3, s4, s5⟩ :=
          splitEntries_spec t.minChildren t.maxChildren (leafPlus leaf o).ents L0 R0
            hm hM hlen1 hse
        have hgl : ∀ e ∈ L0, entryKidsOK t.minChildren t.maxChildren e ∧ entryBBOK e :=
          fun e he => ⟨kids_ents _ _ _ p3 e (mem_msplit_left s1 e he),
            bbOK_ents _ p2 e (mem_msplit_left s1 e he)⟩
        have hgr : ∀ e ∈ R0, entryKidsOK t.minChildren t.maxChildren e ∧ entryBBOK e :=
          fun e he => ⟨kids_ents _ _ _ p3 e (mem_msplit_right s1 e he),
            bbOK_ents _ p2 e (mem_msplit_right s1 e he)⟩
        rw [p5] at hL hR
        obtain ⟨bl1, bl2, bl3, bl4⟩ := built_leaf_facts t.minChildren t.maxChildren
          (leafPlus leaf o).addr (leafPlus leaf o).parentAddr L0 hgl
        obtain ⟨br1, br2, br3, br4⟩ := built_leaf_facts t.minChildren t.maxChildren
          t.nextAddr (leafPlus leaf o).parentAddr R0 hgr
        subst hL
        subst hR
        obtain ⟨a1, a2⟩ := adjustUp_spec t.minChildren t.maxChildren hm hM frames 1 c2 _ _
          root' sroot c' dchain bl1 bl2 bl3
          (by rw [bl4]; exact s3)
          (fun _ => by rw [bl4]; exact s2)
          (fun nx hx => by
            cases hx
            exact ⟨br1, br2, br3, by rw [br4]; exact s4, by rw [br4]; exact s5,
              by rw [bl4]; exact s2⟩) hadj
        exact finishRoot_inv t.minChildren t.maxChildren hm hM t root' sroot c'
          (1 + frames.length) a1.1 a1.2.1 a1.2.2.1 a1.2.2.2 a2
      · -- no split needed at the leaf
        simp only [Option.some.injEq, Prod.mk.injEq] at hsio
        obtain ⟨rfl, rfl, rfl⟩ := hsio
        obtain ⟨a1, a2⟩ := adjustUp_spec t.minChildren t.maxChildren hm hM frames 1
          t.nextAddr _ _ root' sroot c' dchain p1 p2 p3
          (by omega)
          (fun hne => by
            rcases dcase with ⟨rfl, -⟩ | ⟨-, hcnt'⟩
            · exact absurd rfl hne
            · have := (countsOK_bounds _ _ _ hcnt').1
              rw [p4]
              simp only [List.length_append, List.length_cons, List.length_nil]
              push_cast
              omega)
          (fun nx hx => Option.noConfusion hx) hadj
        exact finishRoot_inv t.minChildren t.maxChildren hm hM t root' sroot c'
          (1 + frames.length) a1.1 a1.2.1 a1.2.2.1 a1.2.2.2 a2

theorem runOps_TreeInv :
    ∀ (ops : List Op) (t t' : RTree),
      2 ≤ t.minChildren → 2 * t.minChildren ≤ t.maxChildren →
      TreeInv t.minChildren t.maxChildren t →
      runOps t ops = some t' →
      TreeInv t.minChildren t.maxChildren t' ∧
      t'.minChildren = t.minChildren ∧ t'.maxChildren = t.maxChildren := by
  intro ops
  induction ops with
  | nil =>
    intro t t' hm hM hinv h
    simp only [runOps, Option.some.injEq] at h
    subst h
    exact ⟨hinv, rfl, rfl⟩
  | cons op ops ih =>
    intro t t' hm hM hinv h
    rw [runOps] at h
    split at h
    · exact Option.noConfusion h
    · rename_i t1 h1
      cases op with
      | ins o =>
        rw [applyOp] at h1
        have hinv1 := insertObj_TreeInv t t1 o hm hM hinv h1
        obtain ⟨hp1, hp2⟩ := insertObj_params t t1 o h1
        obtain ⟨hi, he1, he2⟩ := ih t1 t' (by rw [hp1]; exact hm)
          (by rw [hp1, hp2]; exact hM) (by rw [hp1, hp2]; exact hinv1) h
        rw [hp1, hp2] at hi
        rw [hp1] at he1
        rw [hp2] at he2
        exact ⟨hi, he1, he2⟩
      | del o =>
        rw [applyOp, deleteObj] at h1
        simp only [Option.some.injEq] at h1
        subst h1
        exact ih t t' hm hM hinv h

theorem newTree_TreeInv (dim m M : ℤ) (hm : 2 ≤ m) (hM : 2 * m ≤ M) :
    TreeInv m M (newTree dim m M) := by
  refine ⟨⟨1, rfl⟩, rfl, rfl, ?_⟩
  show ((0 : ℕ) : ℤ) ≤ M
  push_cast
  omega

/-- Claim C8: after any completed sequence of Insert and Delete calls on a
new tree with 2 ≤ MinChildren ≤ MaxChildren / 2, the structural invariant
holds: all leaves are at the same depth, every non-root node holds between
MinChildren and MaxChildren entries, and every entry's bounding box equals
exactly the MBR of its child node's entries (for internal entries) or its
object's bounds (for leaf entries).  Sequences on which the Go code panics
(see C3) return none and are excluded. -/
theorem c8_structural_invariant :
    ∀ (dim m M : ℤ) (ops : List Op) (t' : RTree),
      2 ≤ m → 2 * m ≤ M →
      runOps (newTree dim m M) ops = some t' →
      invB m M t' = true := by
  intro dim m M ops t' hm hM h
  obtain ⟨hi, -, -⟩ := runOps_TreeInv ops (newTree dim m M) t' hm hM
    (newTree_TreeInv dim m M hm hM) h
  obtain ⟨⟨H, hH⟩, hkid, hbb, -⟩ := hi
  rw [invB]
  simp only [Bool.and_eq_true]
  exact ⟨⟨by rw [hH]; rfl, hkid⟩, hbb⟩

/-- Witness for C8 at a concrete run: one insert into NewTree(1, 2, 4). -/
theorem c8_structural_invariant_witness :
    (2 : ℤ) ≤ 2 ∧ 2 * 2 ≤ (4 : ℤ) ∧
    runOps (newTree 1 2 4) [Op.ins (pt 1)] = some run8T1 ∧
    invB 2 4 run8T1 = true :=
  ⟨by decide, by decide, rfl,
    c8_structural_invariant 1 2 4 [Op.ins (pt 1)] run8T1 (by decide) (by decide) rfl⟩
